import Mathlib

/-!
goa-lock-plugin: the checksum ledger (`locker.go`).

A shallow embedding of `NewLocker`, `Locker.Lock`, `Locker.prepareLockfile`,
`Locker.postProcessGeneratedFile`, `Locker.writeChecksumToLockFile` and
`Locker.createChecksum`, together with the parts of the Go standard library
they call (`filepath.Clean`, `filepath.Abs`, `filepath.Dir`, `os.Stat`,
`os.MkdirAll`, `os.Create`, `os.OpenFile`, `crypto/sha256`, `encoding/hex`).

Modelling conventions
* Go strings and byte slices are Lean `String`s; the bytes of a file are the
  UTF-8 encoding of its content string.
* The filesystem is a map from path names to nodes (a regular file with its
  content, or a directory).  Permissions, symbolic links and path aliasing are
  not modelled: an operation fails only for a structural reason (missing
  entry, non-directory parent, directory where a file is needed).
* Every system call the code makes is recorded in a trace, in order.
  Closing a file never fails, so the `log.Fatalf` branches of the deferred
  closes are not reached and closes are not recorded.
* `*codegen.File` pointers are addresses into a heap of descriptors; the
  closure that `Lock` stores in `FinalizeFunc` is kept as the pair of values
  it captures (the receiver and the per-iteration copy `f`).
-/

namespace Goa

set_option maxRecDepth 100000

/-! ## Paths (`path/filepath`, Unix) -/

/-- The pieces of a character sequence between occurrences of the separator,
as `strings.Split` gives them for a one-character separator. -/
def splitOnChar (sep : Char) : List Char → List (List Char)
  | [] => [[]]
  | c :: cs =>
    if c = sep then [] :: splitOnChar sep cs
    else ((c :: (splitOnChar sep cs).headD []) :: (splitOnChar sep cs).tail)

/-- `strings.Split(s, sep)` for a one-character separator. -/
def Split (s : String) (sep : Char) : List String :=
  (splitOnChar sep s.data).map String.mk

/-- The elements of a path: the pieces between its separators. -/
def splitSlash (p : List Char) : List (List Char) := splitOnChar '/' p

/-- The path elements joined by single separators, as `strings.Join(xs, "/")`. -/
def joinSlash : List (List Char) → List Char
  | [] => []
  | [s] => s
  | s :: t :: rest => s ++ '/' :: joinSlash (t :: rest)

/-- The element `..`. -/
def dotdot : List Char := ['.', '.']

/-- Whether the output written so far ends in an element that `..` may remove
(`out.w > dotdot` in `filepath.Clean`).  The output is kept last element
first. -/
def canBacktrack : List (List Char) → Bool
  | [] => false
  | top :: _ => decide (top ≠ dotdot)

/-- One iteration of the loop of `filepath.Clean`, consuming one path element.
The output `out` holds the elements written so far, last one first. -/
def cleanStep (rooted : Bool) (out : List (List Char)) (seg : List Char) :
    List (List Char) :=
  if seg = [] then out
  else if seg = ['.'] then out
  else if seg = dotdot then
    if canBacktrack out then out.tail
    else if rooted then out
    else dotdot :: out
  else seg :: out

/-- The path that `filepath.Clean` returns for the elements written, last one
first: they are joined by separators after the root of a rooted path, and
the empty relative path is `.`. -/
def cleanOutput (rooted : Bool) (out : List (List Char)) : List Char :=
  if rooted then '/' :: joinSlash out.reverse
  else if out = [] then ['.']
  else joinSlash out.reverse

/-- Modelled from the spec: `filepath.Clean` belongs to the Go standard
library and is not under src/.  The spec asks for a cleaned path, "resolving
`.`, `..`, and redundant separators"; the rules are those the library
documents: multiple separators collapse, `.` elements vanish, an inner `..`
removes the element before it, `..` at the start of a rooted path vanishes,
and the empty result is `.`. -/
def cleanChars (p : List Char) : List Char :=
  let rooted : Bool := p.head? = some '/'
  cleanOutput rooted ((splitSlash p).foldl (cleanStep rooted) [])

/-- `filepath.Clean`. -/
def Clean (p : String) : String := ⟨cleanChars p.data⟩

/-- `filepath.IsAbs` on Unix: the path starts with a separator. -/
def IsAbs (p : String) : Bool := p.data.head? = some '/'

/-- `filepath.Join(a, b)`: the elements from the first non-empty one on are
joined with a separator and cleaned; the result is empty when both are. -/
def Join (a b : String) : String :=
  if a ≠ "" then Clean (a ++ "/" ++ b)
  else if b ≠ "" then Clean b
  else ""

/-- The part of a path up to and including its last separator
(`path[:i+1]` in `filepath.Dir`). -/
def dirPart (p : List Char) : List Char :=
  (p.reverse.dropWhile (fun c => c ≠ '/')).reverse

/-- `filepath.Dir`: the cleaned path without its last element. -/
def Dir (p : String) : String := ⟨cleanChars (dirPart p.data)⟩

/-! ## Checksums (`crypto/sha256`, `encoding/hex`) -/

/-- The UTF-8 encoding of one character: the bytes a Go string holds for it. -/
def utf8Bytes (c : Char) : List Nat :=
  let n := c.toNat
  if n < 0x80 then [n]
  else if n < 0x800 then [0xC0 + n / 64, 0x80 + n % 64]
  else if n < 0x10000 then [0xE0 + n / 4096, 0x80 + n / 64 % 64, 0x80 + n % 64]
  else [0xF0 + n / 262144, 0x80 + n / 4096 % 64, 0x80 + n / 64 % 64, 0x80 + n % 64]

/-- The bytes of a string. -/
def bytesOf (s : String) : List Nat := s.data.flatMap utf8Bytes

/-- Addition of 32-bit words. -/
def add32 (a b : Nat) : Nat := (a + b) % 2 ^ 32

/-- Rotation of a 32-bit word to the right. -/
def rotr (n x : Nat) : Nat := ((x >>> n) ||| (x <<< (32 - n))) % 2 ^ 32

/-- The largest `r` below `2 ^ 36` with `r ^ k ≤ n`, found bit by bit. -/
def iroot (k n : Nat) : Nat :=
  (List.range 36).foldr (fun b r => if (r + 2 ^ b) ^ k ≤ n then r + 2 ^ b else r) 0

/-- Primality of a number below 324 by trial division. -/
def isPrime (n : Nat) : Bool :=
  decide (2 ≤ n) &&
    (List.range 18).all (fun d => decide (d < 2) || decide (d = n) || decide (n % d ≠ 0))

/-- The first sixty-four primes. -/
def firstPrimes : List Nat := (List.range 312).filter isPrime

/-- The round constants of SHA-256: the first thirty-two bits of the
fractional parts of the cube roots of the first sixty-four primes. -/
def sha256K : List Nat := firstPrimes.map (fun p => iroot 3 (p * 2 ^ 96) % 2 ^ 32)

/-- The initial hash value of SHA-256: the first thirty-two bits of the
fractional parts of the square roots of the first eight primes. -/
def sha256Init : List Nat := (firstPrimes.take 8).map (fun p => iroot 2 (p * 2 ^ 64) % 2 ^ 32)

/-- Message padding: a one bit, zeros, and the bit length as a 64-bit
big-endian number, up to a multiple of 64 bytes. -/
def sha256Pad (msg : List Nat) : List Nat :=
  let l := msg.length
  let bits := 8 * l
  msg ++ 0x80 :: List.replicate ((55 + 64 - l % 64) % 64) 0 ++
    [bits / 2 ^ 56 % 256, bits / 2 ^ 48 % 256, bits / 2 ^ 40 % 256, bits / 2 ^ 32 % 256,
     bits / 2 ^ 24 % 256, bits / 2 ^ 16 % 256, bits / 2 ^ 8 % 256, bits % 256]

/-- The big-endian 32-bit words of a byte sequence. -/
def beWords : List Nat → List Nat
  | a :: b :: c :: d :: rest => (a * 2 ^ 24 + b * 2 ^ 16 + c * 2 ^ 8 + d) :: beWords rest
  | _ => []

/-- The message schedule, latest word first, extended by `n` words. -/
def sha256Extend : Nat → List Nat → List Nat
  | 0, w => w
  | n + 1, w =>
    let w2 := w.getD 1 0
    let w15 := w.getD 14 0
    let s0 := (rotr 7 w15) ^^^ (rotr 18 w15) ^^^ (w15 >>> 3)
    let s1 := (rotr 17 w2) ^^^ (rotr 19 w2) ^^^ (w2 >>> 10)
    sha256Extend n (add32 (add32 s1 (w.getD 6 0)) (add32 s0 (w.getD 15 0)) :: w)

/-- One round of the compression function on the working variables. -/
def sha256Round (v : List Nat) (kw : Nat × Nat) : List Nat :=
  match v with
  | [a, b, c, d, e, f, g, h] =>
    let s1 := (rotr 6 e) ^^^ (rotr 11 e) ^^^ (rotr 25 e)
    let ch := (e &&& f) ^^^ ((e ^^^ (2 ^ 32 - 1)) &&& g)
    let t1 := add32 (add32 (add32 h s1) (add32 ch kw.1)) kw.2
    let s0 := (rotr 2 a) ^^^ (rotr 13 a) ^^^ (rotr 22 a)
    let maj := (a &&& b) ^^^ (a &&& c) ^^^ (b &&& c)
    let t2 := add32 s0 maj
    [add32 t1 t2, a, b, c, add32 d t1, e, f, g]
  | _ => v

/-- The compression function: one 64-byte block folded into the hash value. -/
def sha256Block (h : List Nat) (block : List Nat) : List Nat :=
  let w := (sha256Extend 48 (beWords block).reverse).reverse
  List.zipWith add32 h ((sha256K.zip w).foldl sha256Round h)

/-- All blocks of a padded message folded into the hash value; the first
argument bounds the number of blocks. -/
def sha256Blocks : Nat → List Nat → List Nat → List Nat
  | 0, h, _ => h
  | n + 1, h, bs => if bs = [] then h else sha256Blocks n (sha256Block h (bs.take 64)) (bs.drop 64)

/-- The SHA-256 digest of a byte sequence, as eight 32-bit words. -/
def sha256Sum (msg : List Nat) : List Nat :=
  let padded := sha256Pad msg
  sha256Blocks padded.length sha256Init padded

/-- One hexadecimal digit. -/
def hexDigit (n : Nat) : Char := "0123456789abcdef".data.getD n '0'

/-- The eight hexadecimal digits of a 32-bit word. -/
def hexWord (w : Nat) : List Char :=
  [hexDigit (w / 2 ^ 28 % 16), hexDigit (w / 2 ^ 24 % 16), hexDigit (w / 2 ^ 20 % 16),
   hexDigit (w / 2 ^ 16 % 16), hexDigit (w / 2 ^ 12 % 16), hexDigit (w / 2 ^ 8 % 16),
   hexDigit (w / 2 ^ 4 % 16), hexDigit (w % 16)]

/-- Modelled from the spec: `crypto/sha256` and `encoding/hex` belong to the Go
standard library and are not under src/.  The checksum of a file content is
"a cryptographic content hash" with the digest hex-encoded:
`hex.EncodeToString` of the SHA-256 digest of its bytes. -/
def sha256Hex (content : String) : String := ⟨(sha256Sum (bytesOf content)).flatMap hexWord⟩

/-! ## Operating system (`os`) -/

/-- The error numbers the modelled system calls return. -/
inductive Errno where
  | ENOENT
  | ENOTDIR
  | EISDIR
  | EEXIST
  | EBADF
  deriving DecidableEq, Repr

/-- A filesystem entry: a regular file with its content, or a directory. -/
inductive Node where
  | file (content : String)
  | dir
  deriving DecidableEq, Repr

/-- The system calls of the model. -/
inductive Syscall where
  | stat
  | mkdir
  | create
  | openAppend
  | write
  | openRead
  | read
  deriving DecidableEq, Repr

/-- One entry of the system-call trace: the call, its path argument and
whether it succeeded. -/
structure Event where
  call : Syscall
  path : String
  ok : Bool
  deriving DecidableEq, Repr

/-- The state of the operating system: the filesystem and the trace of the
system calls made so far, oldest first. -/
structure OS where
  nodes : String → Option Node
  trace : List Event

/-- `os.IsNotExist`. -/
def IsNotExist (e : Errno) : Bool := decide (e = Errno.ENOENT)

/-- The directories that lead to a path, nearest first: `Dir p`,
`Dir (Dir p)`, ... up to and including the root or the current directory
(the directory that is its own `Dir`).  The first argument bounds the
depth. -/
def ancestors : Nat → String → List String
  | 0, _ => []
  | n + 1, p => if Dir (Dir p) = Dir p then [Dir p] else Dir p :: ancestors n (Dir p)

/-- Path resolution of the directories in the given list: each must exist
(`ENOENT`) and be a directory (`ENOTDIR`). -/
def walk (nodes : String → Option Node) : List String → Except Errno Unit
  | [] => .ok ()
  | d :: ds =>
    match nodes d with
    | some .dir => walk nodes ds
    | some (.file _) => .error .ENOTDIR
    | none => .error .ENOENT

/-- Path resolution up to the parent of `p`, from the top down. -/
def OS.resolve (os : OS) (p : String) : Except Errno Unit :=
  walk os.nodes (ancestors (p.length + 1) p).reverse

/-- The state with one more trace entry. -/
def OS.log (os : OS) (call : Syscall) (path : String) (ok : Bool) : OS :=
  { os with trace := os.trace ++ [⟨call, path, ok⟩] }

/-- The state with the entry at `p` set to `n`. -/
def OS.set (os : OS) (p : String) (n : Node) : OS :=
  { os with nodes := fun q => if q = p then some n else os.nodes q }

/-- Modelled from the spec: `os.Stat` (Go standard library, not under src/),
the lookup `prepareLockfile` uses to see whether the ledger directory
exists. -/
def OS.Stat (os : OS) (p : String) : Except Errno Node × OS :=
  match os.resolve p with
  | .error e => (.error e, os.log .stat p false)
  | .ok _ =>
    match os.nodes p with
    | some n => (.ok n, os.log .stat p true)
    | none => (.error .ENOENT, os.log .stat p false)

/-- `os.Mkdir`: creates one directory below an existing one. -/
def OS.Mkdir (os : OS) (p : String) : Except Errno Unit × OS :=
  match os.resolve p with
  | .error e => (.error e, os.log .mkdir p false)
  | .ok _ =>
    match os.nodes p with
    | some _ => (.error .EEXIST, os.log .mkdir p false)
    | none => (.ok (), (os.set p .dir).log .mkdir p true)

/-- The parent that `os.MkdirAll` recurses into: the path without its last
element and the separator before it (`path[:i]`). -/
def trimParent (p : String) : String :=
  ⟨((((p.data.reverse.dropWhile (fun c => c = '/')).dropWhile
    (fun c => c ≠ '/')).drop 1).reverse)⟩

/-- Modelled from the spec: `os.MkdirAll` (Go standard library, not under
src/), "creating intermediate directories as needed".  As in the library: a
path that exists is accepted when it is a directory and refused when it is
not; otherwise the parent is made first and then the directory itself.  The
first argument bounds the recursion; the parent is always shorter than the
path. -/
def OS.mkdirAllAux : Nat → OS → String → Except Errno Unit × OS
  | fuel, os, path =>
    match os.Stat path with
    | (.ok .dir, os1) => (.ok (), os1)
    | (.ok (.file _), os1) => (.error .ENOTDIR, os1)
    | (.error _, os1) =>
      let parent := trimParent path
      let made : Except Errno Unit × OS :=
        match fuel with
        | 0 => (.ok (), os1)
        | n + 1 => if parent ≠ "" then OS.mkdirAllAux n os1 parent else (.ok (), os1)
      match made with
      | (.error e, os2) => (.error e, os2)
      | (.ok _, os2) =>
        match os2.Mkdir path with
        | (.ok _, os3) => (.ok (), os3)
        | (.error e, os3) =>
          match os3.Stat path with
          | (.ok .dir, os4) => (.ok (), os4)
          | (_, os4) => (.error e, os4)

/-- `os.MkdirAll`. -/
def OS.MkdirAll (os : OS) (path : String) : Except Errno Unit × OS :=
  OS.mkdirAllAux path.length os path

/-- Modelled from the spec: `os.Create` (Go standard library, not under src/),
which "creates-or-truncates the ledger file to zero length": the parent must
be a directory and the path must not be one. -/
def OS.Create (os : OS) (p : String) : Except Errno Unit × OS :=
  match os.resolve p with
  | .error e => (.error e, os.log .create p false)
  | .ok _ =>
    match os.nodes p with
    | some .dir => (.error .EISDIR, os.log .create p false)
    | _ => (.ok (), (os.set p (.file "")).log .create p true)

/-- Modelled from the spec: `os.OpenFile` with `O_APPEND|O_WRONLY|O_CREATE`
(Go standard library, not under src/): "open the ledger file in append mode
(never truncate here)"; a missing file is created empty. -/
def OS.OpenAppend (os : OS) (p : String) : Except Errno Unit × OS :=
  match os.resolve p with
  | .error e => (.error e, os.log .openAppend p false)
  | .ok _ =>
    match os.nodes p with
    | some .dir => (.error .EISDIR, os.log .openAppend p false)
    | some (.file _) => (.ok (), os.log .openAppend p true)
    | none => (.ok (), (os.set p (.file "")).log .openAppend p true)

/-- `(*os.File).Write` on a file opened in append mode: the data goes to the
end of the file. -/
def OS.Write (os : OS) (p : String) (data : String) : Except Errno Unit × OS :=
  match os.nodes p with
  | some (.file c) => (.ok (), (os.set p (.file (c ++ data))).log .write p true)
  | _ => (.error .EBADF, os.log .write p false)

/-- Modelled from the spec: `os.Open` (Go standard library, not under src/),
with which the hook is to "open the written file": an existing file or
directory is opened for reading. -/
def OS.Open (os : OS) (p : String) : Except Errno Unit × OS :=
  match os.resolve p with
  | .error e => (.error e, os.log .openRead p false)
  | .ok _ =>
    match os.nodes p with
    | some _ => (.ok (), os.log .openRead p true)
    | none => (.error .ENOENT, os.log .openRead p false)

/-- Modelled from the spec: reading an open file to its end, as `io.Copy` (Go
standard library, not under src/) does to "stream its full contents": the
whole content of a regular file; a directory cannot be read. -/
def OS.ReadAll (os : OS) (p : String) : Except Errno String × OS :=
  match os.nodes p with
  | some (.file c) => (.ok c, os.log .read p true)
  | some .dir => (.error .EISDIR, os.log .read p false)
  | none => (.error .EBADF, os.log .read p false)

/-! ## The locker (`locker.go`) -/

/-- The constant `lockFilePermission`, the mode passed to `os.OpenFile`. -/
def lockFilePermission : Nat := 0o777

/-- The constant `lockFileDirPermissions`, the mode passed to `os.MkdirAll`. -/
def lockFileDirPermissions : Nat := 0o755

/-- The constant `lockFilename`. -/
def lockFilename : String := "gen/goa.lock"

/-- The constant `outputFlagName`. -/
def outputFlagName : String := "output"

/-- The errors of the package: the three sentinel errors (the wrapped ones
with the quoted path and the cause, as `fmt.Errorf("%w (%q): %v", ...)`
formats them) and errors of the operating system passed through. -/
inductive Error where
  | errNoFilesDefined
  | errFailedToCreateChecksum (path : String) (cause : Errno)
  | errFailedToWriteChecksum (path : String) (cause : Errno)
  | os (cause : Errno)
  deriving DecidableEq, Repr

/-- The struct `Locker`.  `files` holds the addresses of the descriptors
(`[]*codegen.File`); the field `lockFile` is never assigned or read and is
left out. -/
structure Locker where
  files : List Nat
  lockFilename : String
  deriving DecidableEq, Repr

/-- The function literal `func(s string) error { return
l.postProcessGeneratedFile(s, f) }` of `Lock`, as the values it captures: the
receiver `l` and the variable `f`. -/
structure Closure where
  l : Locker
  f : Nat
  deriving DecidableEq, Repr

/-- The fields of `codegen.File` the locker uses: the declared path and the
slot of the completion hook (`none` is the nil function). -/
structure File where
  Path : String
  FinalizeFunc : Option Closure
  deriving DecidableEq, Repr

/-- The state a locker acts on: the operating system and the heap of
descriptors that `*codegen.File` pointers refer to. -/
structure World where
  os : OS
  heap : Nat → File

/-- Modelled from the spec: `filepath.Abs` (Go standard library, not under
src/), which is to "normalize the result to an absolute, cleaned path".  As
in the library on Unix: an absolute path is cleaned, a relative one is joined
to the working directory, whose lookup may fail. -/
def Abs (getwd : Except Errno String) (path : String) : Except Errno String :=
  if IsAbs path then .ok (Clean path)
  else
    match getwd with
    | .error e => .error e
    | .ok wd => .ok (Join wd path)

/-- `NewLocker`.  The process state it reads is passed in: `outputDirFlag` is
the value of the flag `output` (`none` when `flag.Lookup` returns nil) and
`getwd` the result of `os.Getwd`. -/
def NewLocker (outputDirFlag : Option String) (getwd : Except Errno String)
    (files : List Nat) : Except Errno Locker :=
  match getwd with
  | .error err => .error err
  | .ok wd =>
    let outputDir :=
      match outputDirFlag with
      | some v => if v ≠ "" then v else wd
      | none => wd
    match Abs getwd (outputDir ++ "/" ++ lockFilename) with
    | .error err => .error err
    | .ok absolutePath => .ok { files := files, lockFilename := absolutePath }

/-- `Locker.prepareLockfile`. -/
def Locker.prepareLockfile (l : Locker) (os : OS) : Option Errno × OS :=
  let made : Option Errno × OS :=
    match os.Stat (Dir l.lockFilename) with
    | (.error err, os1) =>
      if IsNotExist err then
        match os1.MkdirAll (Dir l.lockFilename) with
        | (.error err2, os2) => (some err2, os2)
        | (.ok _, os2) => (none, os2)
      else (none, os1)
    | (.ok _, os1) => (none, os1)
  match made with
  | (some err, os2) => (some err, os2)
  | (none, os2) =>
    match os2.Create l.lockFilename with
    | (.error err, os3) => (some err, os3)
    | (.ok _, os3) => (none, os3)

/-- `Locker.createChecksum`. -/
def Locker.createChecksum (_l : Locker) (generatedFilePath : String) (os : OS) :
    Except Errno String × OS :=
  match os.Open generatedFilePath with
  | (.error err, os1) => (.error err, os1)
  | (.ok _, os1) =>
    match os1.ReadAll generatedFilePath with
    | (.error err, os2) => (.error err, os2)
    | (.ok content, os2) => (.ok (sha256Hex content), os2)

/-- The record of one file: `fmt.Sprintf("%s::%s\n", file, checksum)`. -/
def lockLine (file checksum : String) : String := file ++ "::" ++ checksum ++ "\n"

/-- `Locker.writeChecksumToLockFile`. -/
def Locker.writeChecksumToLockFile (l : Locker) (file checksum : String) (os : OS) :
    Option Errno × OS :=
  match os.OpenAppend l.lockFilename with
  | (.error err, os1) => (some err, os1)
  | (.ok _, os1) =>
    match os1.Write l.lockFilename (lockLine file checksum) with
    | (.error err, os2) => (some err, os2)
    | (.ok _, os2) => (none, os2)

/-- `Locker.postProcessGeneratedFile`; `file` is the address of the
descriptor. -/
def Locker.postProcessGeneratedFile (l : Locker) (filename : String) (file : Nat)
    (w : World) : Option Error × World :=
  match l.createChecksum filename w.os with
  | (.error err, os1) =>
    (some (.errFailedToCreateChecksum (w.heap file).Path err), { w with os := os1 })
  | (.ok checksum, os1) =>
    match l.writeChecksumToLockFile (w.heap file).Path checksum os1 with
    | (some err, os2) =>
      (some (.errFailedToWriteChecksum l.lockFilename err), { w with os := os2 })
    | (none, os2) => (none, { w with os := os2 })

/-- The loop of `Lock`: every descriptor of the collection gets the closure
over the receiver and over `f`, the copy of the loop variable. -/
def Locker.installHooks (l : Locker) : List Nat → (Nat → File) → (Nat → File)
  | [], heap => heap
  | file :: rest, heap =>
    let f := file
    l.installHooks rest
      (fun a => if a = file then { heap a with FinalizeFunc := some ⟨l, f⟩ } else heap a)

/-- What `Lock` returns: the ledger path (`none` is the nil slice), the error
(`none` is nil), and the state it leaves. -/
structure LockResult where
  lockFilename : Option String
  err : Option Error
  world : World

/-- `Locker.Lock`. -/
def Locker.Lock (l : Locker) (w : World) : LockResult :=
  if l.files.length = 0 then ⟨none, some .errNoFilesDefined, w⟩
  else
    match l.prepareLockfile w.os with
    | (some err, os1) => ⟨none, some (.os err), { w with os := os1 }⟩
    | (none, os1) =>
      ⟨some l.lockFilename, none, { os := os1, heap := l.installHooks l.files w.heap }⟩

/-- The call of a descriptor's completion hook by the generation pipeline
(`codegen.File.Render`: `if f.FinalizeFunc != nil { f.FinalizeFunc(path) }`):
the stored closure runs `postProcessGeneratedFile` on the values it
captured. -/
def callFinalizeFunc (file : Nat) (s : String) (w : World) : Option Error × World :=
  match (w.heap file).FinalizeFunc with
  | none => (none, w)
  | some c => c.l.postProcessGeneratedFile s c.f w

/-- The hooks of the given descriptors called one after the other, each with
the path its file was written to; the run stops at the first error. -/
def runHooks : List (Nat × String) → World → Option Error × World
  | [], w => (none, w)
  | (file, s) :: rest, w =>
    match callFinalizeFunc file s w with
    | (some err, w1) => (some err, w1)
    | (none, w1) => runHooks rest w1

/-- The content of the regular file at a path, if there is one. -/
def OS.content (os : OS) (p : String) : Option String :=
  match os.nodes p with
  | some (.file c) => some c
  | _ => none

/-- Whether the entry at a path is a directory. -/
def OS.isDir (os : OS) (p : String) : Bool :=
  match os.nodes p with
  | some .dir => true
  | _ => false

/-! ## Sequences of operations on one locker -/

/-- An operation on a locker: a call of `Lock`, or the call of the completion
hook of the descriptor at an address with the path its file was written
to. -/
inductive Op where
  | lock
  | finalize (file : Nat) (path : String)
  deriving DecidableEq, Repr

/-- The state after one operation. -/
def step (l : Locker) (w : World) : Op → World
  | .lock => (l.Lock w).world
  | .finalize file path => (callFinalizeFunc file path w).2

/-- The state after a sequence of operations. -/
def run (l : Locker) (ops : List Op) (w : World) : World := ops.foldl (step l) w

/-- The number of calls of `Lock` in a sequence of operations that succeed. -/
def locksSucceeded (l : Locker) : List Op → World → Nat
  | [], _ => 0
  | .lock :: ops, w =>
    (if (l.Lock w).err = none then 1 else 0) + locksSucceeded l ops (l.Lock w).world
  | .finalize file path :: ops, w => locksSucceeded l ops (callFinalizeFunc file path w).2

/-- A trace entry that creates or truncates the file at `p`. -/
def isTruncate (p : String) (e : Event) : Bool :=
  decide (e.call = Syscall.create) && decide (e.path = p) && e.ok

/-- A trace entry that appends to the file at `p`. -/
def isAppend (p : String) (e : Event) : Bool :=
  decide (e.call = Syscall.write) && decide (e.path = p) && e.ok

/-- The number of times a trace creates or truncates the file at `p`. -/
def truncations (p : String) (t : List Event) : Nat := (t.filter (isTruncate p)).length

/-- Whether every append to the file at `p` in a trace comes after a creation
or truncation of it in that trace. -/
def truncatedBeforeAppend (p : String) : List Event → Bool
  | [] => true
  | e :: t =>
    if isTruncate p e then true
    else if isAppend p e then false
    else truncatedBeforeAppend p t

/-! ## Example states -/

/-- A filesystem with the directories `/` and `/w` and two generated files. -/
def exampleNodes : String → Option Node := fun p =>
  if p = "/" then some .dir
  else if p = "/w" then some .dir
  else if p = "/w/a.go" then some (.file "abc")
  else if p = "/w/b.go" then some (.file "")
  else none

/-- A heap with the descriptor of `a.go` at address 0 and that of `b.go`
everywhere else, no hook installed. -/
def exampleHeap : Nat → File := fun a => ⟨if a = 0 then "a.go" else "b.go", none⟩

/-- The example state: no system call made so far. -/
def exampleWorld : World := ⟨⟨exampleNodes, []⟩, exampleHeap⟩

/-- A locker for both example descriptors with its ledger below `/w`. -/
def exampleLocker : Locker := ⟨[0, 1], "/w/gen/goa.lock"⟩

/-- A filesystem in which the place of the ledger directory, `/w/gen`, is
taken by a regular file. -/
def blockedNodes : String → Option Node := fun p =>
  if p = "/" then some .dir
  else if p = "/w" then some .dir
  else if p = "/w/gen" then some (.file "x")
  else none

/-- The state with the blocked filesystem. -/
def blockedWorld : World := ⟨⟨blockedNodes, []⟩, exampleHeap⟩

/-- The content of a ledger with the given lines: each line followed by a
newline. -/
def ledgerOf : List String → String
  | [] => ""
  | line :: rest => line ++ "\n" ++ ledgerOf rest

/-- A heap whose descriptors declare a path with a newline in it. -/
def newlineHeap : Nat → File := fun _ => ⟨"a\nb.go", none⟩

/-- The example filesystem with the descriptors of `newlineHeap`. -/
def newlineWorld : World := ⟨⟨exampleNodes, []⟩, newlineHeap⟩

/-- A locker for one descriptor with its ledger below `/w`. -/
def singleLocker : Locker := ⟨[0], "/w/gen/goa.lock"⟩

/-- The output directory as the spec describes it: the working directory when
the output-directory value is absent or empty, the value itself when it is
absolute, and the value resolved against the working directory when it is
relative. -/
def resolvedOutputDir (outputDirFlag : Option String) (wd : String) : String :=
  match outputDirFlag with
  | none => wd
  | some v => if v = "" then wd else if IsAbs v then v else wd ++ "/" ++ v

/-- The example state after `Lock` and the hook of `b.go`: the ledger holds
one record. -/
def oneRecordWorld : World :=
  (runHooks [(1, "/w/b.go")] (exampleLocker.Lock exampleWorld).world).2

/-! ## System calls: effect on the filesystem -/

@[simp] theorem OS.log_nodes (os : OS) (c : Syscall) (p : String) (b : Bool) :
    (os.log c p b).nodes = os.nodes := rfl

@[simp] theorem OS.log_trace (os : OS) (c : Syscall) (p : String) (b : Bool) :
    (os.log c p b).trace = os.trace ++ [⟨c, p, b⟩] := rfl

@[simp] theorem OS.set_nodes (os : OS) (p : String) (n : Node) (q : String) :
    (os.set p n).nodes q = if q = p then some n else os.nodes q := rfl

@[simp] theorem OS.set_trace (os : OS) (p : String) (n : Node) :
    (os.set p n).trace = os.trace := rfl

theorem OS.resolve_log (os : OS) (c : Syscall) (p q : String) (b : Bool) :
    (os.log c p b).resolve q = os.resolve q := rfl

theorem walk_ok_mem (nodes : String → Option Node) (ds : List String)
    (h : walk nodes ds = .ok ()) (d : String) (hd : d ∈ ds) : nodes d = some .dir := by
  induction ds with
  | nil => cases hd
  | cons x xs ih =>
    unfold walk at h
    rcases List.mem_cons.mp hd with rfl | hmem
    · cases hx : nodes d with
      | none => simp [hx] at h
      | some n => cases n <;> simp_all
    · cases hx : nodes x with
      | none => simp [hx] at h
      | some n =>
        cases n with
        | file c => simp [hx] at h
        | dir => simp [hx] at h; exact ih h hmem

theorem Dir_mem_ancestors (n : Nat) (p : String) : Dir p ∈ ancestors (n + 1) p := by
  unfold ancestors
  split <;> simp

/-- A path resolves only if its parent is a directory. -/
theorem OS.resolve_ok_parent (os : OS) (p : String) (h : os.resolve p = .ok ()) :
    os.nodes (Dir p) = some .dir :=
  walk_ok_mem os.nodes _ h (Dir p) (List.mem_reverse.mpr (Dir_mem_ancestors _ p))

theorem OS.Create_ok (os : OS) (p : String) (os1 : OS) (u : Unit)
    (h : os.Create p = (.ok u, os1)) :
    os.resolve p = .ok () ∧ os.nodes p ≠ some .dir ∧
      os1 = (os.set p (.file "")).log .create p true := by
  unfold OS.Create at h
  split at h
  · simp at h
  · rename_i hr
    split at h
    · simp at h
    · rename_i hn
      simp only [Prod.mk.injEq] at h
      exact ⟨hr, fun hd => hn hd, h.2.symm⟩


/-! ## `prepareLockfile` and `Lock` -/

/-- A successful `prepareLockfile` ends with the successful `os.Create` of the
ledger, in a state where the ledger path resolves. -/
theorem Locker.prepareLockfile_ok (l : Locker) (os : OS)
    (h : (l.prepareLockfile os).1 = none) :
    ∃ os2 : OS, os2.resolve l.lockFilename = .ok () ∧ os2.nodes l.lockFilename ≠ some .dir ∧
      (l.prepareLockfile os).2 = (os2.set l.lockFilename (.file "")).log .create l.lockFilename true := by
  unfold Locker.prepareLockfile at h ⊢
  generalize hm : (match os.Stat (Dir l.lockFilename) with
    | (.error err, os1) =>
      if IsNotExist err then
        match os1.MkdirAll (Dir l.lockFilename) with
        | (.error err2, os2) => (some err2, os2)
        | (.ok _, os2) => (none, os2)
      else (none, os1)
    | (.ok _, os1) => ((none : Option Errno), os1)) = made at h ⊢
  obtain ⟨e, os2⟩ := made
  cases e with
  | some err => simp at h
  | none =>
    simp only at h ⊢
    cases hc : os2.Create l.lockFilename with
    | mk r os3 =>
      cases r with
      | error err => simp [hc] at h
      | ok u =>
        obtain ⟨hr, hnd, h3⟩ := OS.Create_ok os2 _ os3 u hc
        exact ⟨os2, hr, hnd, by simp [h3]⟩

theorem Locker.Lock_ok (l : Locker) (w : World) (h : (l.Lock w).err = none) :
    l.files ≠ [] ∧ (l.prepareLockfile w.os).1 = none ∧
      (l.Lock w).lockFilename = some l.lockFilename ∧
      (l.Lock w).world = ⟨(l.prepareLockfile w.os).2, l.installHooks l.files w.heap⟩ := by
  unfold Locker.Lock at h ⊢
  by_cases hl : l.files.length = 0
  · simp [hl] at h
  · simp only [hl, if_false] at h ⊢
    cases hp : l.prepareLockfile w.os with
    | mk e os1 =>
      cases e with
      | some err => simp [hp] at h
      | none => exact ⟨fun hnil => hl (by simp [hnil]), rfl, rfl, rfl⟩

/-- C2. `Lock` on a locker with no files returns the error "no files defined"
and a nil path, and leaves the whole state as it was: the filesystem, the
trace of system calls (none is made) and the descriptors. -/
theorem lock_without_files_is_noop (l : Locker) (w : World) (h : l.files = []) :
    (l.Lock w).err = some Error.errNoFilesDefined ∧ (l.Lock w).lockFilename = none ∧
      (l.Lock w).world = w := by
  unfold Locker.Lock
  simp [h]

theorem lock_without_files_is_noop_witness :
    (Locker.mk [] "/w/gen/goa.lock").files = [] ∧
      ((Locker.mk [] "/w/gen/goa.lock").Lock exampleWorld).err = some Error.errNoFilesDefined ∧
      ((Locker.mk [] "/w/gen/goa.lock").Lock exampleWorld).lockFilename = none ∧
      ((Locker.mk [] "/w/gen/goa.lock").Lock exampleWorld).world = exampleWorld :=
  ⟨rfl, lock_without_files_is_noop (Locker.mk [] "/w/gen/goa.lock") exampleWorld rfl⟩

/-- C4. When `Lock` succeeds on a non-empty collection, then whatever the
filesystem held before, afterwards the parent directory of the ledger is a
directory and the ledger is a regular file of length zero. -/
theorem lock_resets_ledger (l : Locker) (w : World) (_hfiles : l.files ≠ [])
    (hok : (l.Lock w).err = none) :
    (l.Lock w).world.os.isDir (Dir l.lockFilename) = true ∧
      (l.Lock w).world.os.content l.lockFilename = some "" ∧
      ((l.Lock w).world.os.content l.lockFilename).map String.length = some 0 := by
  obtain ⟨_, hprep, _, hw⟩ := Locker.Lock_ok l w hok
  obtain ⟨os2, hr, hnd, h2⟩ := Locker.prepareLockfile_ok l w.os hprep
  have hpar := OS.resolve_ok_parent os2 _ hr
  rw [hw]
  simp only [h2]
  refine ⟨?_, ?_, ?_⟩
  · unfold OS.isDir
    simp only [OS.log_nodes, OS.set_nodes]
    by_cases hd : Dir l.lockFilename = l.lockFilename
    · rw [hd] at hpar
      exact absurd hpar hnd
    · simp [hd, hpar]
  · simp [OS.content]
  · simp [OS.content]

/-- C5. When preparing the ledger fails, `Lock` returns that error and a nil
path, and the heap of descriptors, so every completion-hook slot, is as
before. -/
theorem lock_failure_installs_no_hook (l : Locker) (w : World) (e : Errno)
    (hfiles : l.files ≠ []) (hfail : (l.prepareLockfile w.os).1 = some e) :
    (l.Lock w).err = some (Error.os e) ∧ (l.Lock w).lockFilename = none ∧
      (l.Lock w).world.heap = w.heap ∧
      ∀ a, ((l.Lock w).world.heap a).FinalizeFunc = (w.heap a).FinalizeFunc := by
  have hl : ¬ l.files.length = 0 := fun h0 => hfiles (List.length_eq_zero.mp h0)
  unfold Locker.Lock
  simp only [hl, if_false]
  cases hp : l.prepareLockfile w.os with
  | mk r os1 =>
    rw [hp] at hfail
    simp only at hfail
    subst hfail
    simp

theorem lock_resets_ledger_witness :
    exampleLocker.files ≠ [] ∧ (exampleLocker.Lock exampleWorld).err = none ∧
      ((exampleLocker.Lock exampleWorld).world.os.isDir (Dir exampleLocker.lockFilename) = true ∧
      (exampleLocker.Lock exampleWorld).world.os.content exampleLocker.lockFilename = some "" ∧
      ((exampleLocker.Lock exampleWorld).world.os.content exampleLocker.lockFilename).map
        String.length = some 0) :=
  ⟨by decide, by decide, lock_resets_ledger exampleLocker exampleWorld (by decide) (by decide)⟩

theorem lock_failure_installs_no_hook_witness :
    exampleLocker.files ≠ [] ∧
      (exampleLocker.prepareLockfile blockedWorld.os).1 = some Errno.ENOTDIR ∧
      ((exampleLocker.Lock blockedWorld).err = some (Error.os Errno.ENOTDIR) ∧
      (exampleLocker.Lock blockedWorld).lockFilename = none ∧
      (exampleLocker.Lock blockedWorld).world.heap = blockedWorld.heap ∧
      ∀ a, ((exampleLocker.Lock blockedWorld).world.heap a).FinalizeFunc =
        (blockedWorld.heap a).FinalizeFunc) :=
  ⟨by decide, by decide,
    lock_failure_installs_no_hook exampleLocker blockedWorld Errno.ENOTDIR (by decide) (by decide)⟩


/-! ## The completion hook -/

theorem OS.Open_snd (os : OS) (p : String) :
    ∃ b, (os.Open p).2 = os.log .openRead p b := by
  unfold OS.Open
  cases os.resolve p with
  | error e => exact ⟨false, rfl⟩
  | ok u =>
    cases os.nodes p with
    | none => exact ⟨false, rfl⟩
    | some n => exact ⟨true, rfl⟩

theorem OS.ReadAll_snd (os : OS) (p : String) :
    ∃ b, (os.ReadAll p).2 = os.log .read p b := by
  unfold OS.ReadAll
  cases os.nodes p with
  | none => exact ⟨false, rfl⟩
  | some n =>
    cases n with
    | dir => exact ⟨false, rfl⟩
    | file c => exact ⟨true, rfl⟩

/-- Computing a checksum only reads: the trace grows by the opening and
possibly the reading of the file, the filesystem stays as it is. -/
theorem Locker.createChecksum_snd (l : Locker) (p : String) (os : OS) :
    ∃ t, (l.createChecksum p os).2 = { os with trace := os.trace ++ t } ∧
      ∀ e ∈ t, e.call = Syscall.openRead ∨ e.call = Syscall.read := by
  unfold Locker.createChecksum
  obtain ⟨b, hb⟩ := OS.Open_snd os p
  cases ho : os.Open p with
  | mk r os1 =>
    rw [ho] at hb
    simp only at hb
    subst hb
    cases r with
    | error e => exact ⟨[⟨.openRead, p, b⟩], rfl, by simp⟩
    | ok u =>
      obtain ⟨b2, hb2⟩ := OS.ReadAll_snd (os.log .openRead p b) p
      cases hrd : (os.log .openRead p b).ReadAll p with
      | mk r2 os2 =>
        rw [hrd] at hb2
        simp only at hb2
        subst hb2
        refine ⟨[⟨.openRead, p, b⟩, ⟨.read, p, b2⟩], ?_, by simp⟩
        cases r2 <;> simp only [hrd] <;> simp [OS.log]

theorem Locker.createChecksum_nodes (l : Locker) (p : String) (os : OS) :
    (l.createChecksum p os).2.nodes = os.nodes := by
  obtain ⟨t, ht, _⟩ := Locker.createChecksum_snd l p os
  rw [ht]

theorem Locker.createChecksum_ok (l : Locker) (p : String) (os : OS) (sum : String)
    (h : (l.createChecksum p os).1 = .ok sum) :
    ∃ content, os.content p = some content ∧ sum = sha256Hex content := by
  unfold Locker.createChecksum OS.Open OS.ReadAll at h
  unfold OS.content
  cases hn : os.nodes p with
  | none => cases hr : os.resolve p <;> simp [hn, hr] at h
  | some n =>
    cases n with
    | dir => cases hr : os.resolve p <;> simp [hn, hr] at h
    | file c =>
      cases hr : os.resolve p with
      | error e => simp [hn, hr] at h
      | ok u => simp [hn, hr] at h; exact ⟨c, rfl, h.symm⟩

/-- A regular file whose path resolves gets its checksum. -/
theorem Locker.createChecksum_of_file (l : Locker) (p : String) (os : OS) (content : String)
    (hr : os.resolve p = .ok ()) (hn : os.nodes p = some (.file content)) :
    (l.createChecksum p os).1 = .ok (sha256Hex content) := by
  unfold Locker.createChecksum OS.Open OS.ReadAll
  simp [hn, hr]

theorem Locker.writeChecksum_ok (l : Locker) (file sum : String) (os : OS)
    (h : (l.writeChecksumToLockFile file sum os).1 = none) :
    (l.writeChecksumToLockFile file sum os).2.nodes = fun q =>
      if q = l.lockFilename then
        some (.file ((os.content l.lockFilename).getD "" ++ lockLine file sum))
      else os.nodes q := by
  unfold Locker.writeChecksumToLockFile OS.OpenAppend OS.Write at h ⊢
  unfold OS.content
  cases hr : os.resolve l.lockFilename with
  | error e => simp [hr] at h
  | ok u =>
    cases hn : os.nodes l.lockFilename with
    | none =>
      simp [hn, hr]
      funext q
      by_cases hq : q = l.lockFilename <;> simp [hq]
    | some n =>
      cases n with
      | dir => simp [hn, hr] at h
      | file c =>
        simp [hn, hr]
        funext q
        by_cases hq : q = l.lockFilename <;> simp [hq]

/-- Appending succeeds when the ledger path resolves and is not a directory. -/
theorem Locker.writeChecksum_of_appendable (l : Locker) (file sum : String) (os : OS)
    (hr : os.resolve l.lockFilename = .ok ()) (hn : os.nodes l.lockFilename ≠ some .dir) :
    (l.writeChecksumToLockFile file sum os).1 = none := by
  unfold Locker.writeChecksumToLockFile OS.OpenAppend OS.Write
  cases hx : os.nodes l.lockFilename with
  | none => simp [hx, hr]
  | some n =>
    cases n with
    | dir => exact absurd hx hn
    | file c => simp [hx, hr]

/-- The effect of a successful hook: the file at the written path is a regular
file, the ledger becomes its previous content (empty when it was missing)
followed by the record of the declared path and the checksum of that file,
every other entry of the filesystem and the heap stay as they were. -/
theorem Locker.postProcess_ok (l : Locker) (p : String) (f : Nat) (w : World)
    (h : (l.postProcessGeneratedFile p f w).1 = none) :
    ∃ content, w.os.content p = some content ∧
      (l.postProcessGeneratedFile p f w).2.os.nodes = (fun q =>
        if q = l.lockFilename then
          some (.file ((w.os.content l.lockFilename).getD "" ++
            lockLine (w.heap f).Path (sha256Hex content)))
        else w.os.nodes q) ∧
      (l.postProcessGeneratedFile p f w).2.heap = w.heap := by
  unfold Locker.postProcessGeneratedFile at h ⊢
  cases hc : l.createChecksum p w.os with
  | mk r os1 =>
    have hnodes : os1.nodes = w.os.nodes := by
      have := Locker.createChecksum_nodes l p w.os
      rw [hc] at this
      exact this
    cases r with
    | error e => simp [hc] at h
    | ok sum =>
      obtain ⟨content, hcontent, hsum⟩ :=
        Locker.createChecksum_ok l p w.os sum (by rw [hc])
      simp only [hc] at h ⊢
      cases hw : l.writeChecksumToLockFile (w.heap f).Path sum os1 with
      | mk r2 os2 =>
        cases r2 with
        | some e => simp [hw] at h
        | none =>
          have h2 := Locker.writeChecksum_ok l (w.heap f).Path sum os1 (by rw [hw])
          rw [hw] at h2
          simp only at h2
          refine ⟨content, hcontent, ?_, rfl⟩
          simp only [h2, OS.content, hnodes, hsum]

/-- The hook succeeds when the written path resolves to a regular file and the
ledger path resolves and is not a directory. -/
theorem Locker.postProcess_of_ready (l : Locker) (p : String) (f : Nat) (w : World)
    (content : String) (hr : w.os.resolve p = .ok ()) (hn : w.os.nodes p = some (.file content))
    (hlr : w.os.resolve l.lockFilename = .ok ()) (hln : w.os.nodes l.lockFilename ≠ some .dir) :
    (l.postProcessGeneratedFile p f w).1 = none := by
  unfold Locker.postProcessGeneratedFile
  have hsum := Locker.createChecksum_of_file l p w.os content hr hn
  have hnodes := Locker.createChecksum_nodes l p w.os
  cases hc : l.createChecksum p w.os with
  | mk r os1 =>
    rw [hc] at hsum hnodes
    simp only at hsum hnodes
    subst hsum
    simp only
    have hw := Locker.writeChecksum_of_appendable l (w.heap f).Path (sha256Hex content) os1
      (by simpa [OS.resolve, hnodes] using hlr) (by rw [hnodes]; exact hln)
    cases hx : l.writeChecksumToLockFile (w.heap f).Path (sha256Hex content) os1 with
    | mk r2 os2 =>
      rw [hx] at hw
      simp only at hw
      subst hw
      rfl


theorem lockLine_assoc (c path sum : String) :
    c ++ lockLine path sum = c ++ path ++ "::" ++ sum ++ "\n" := by
  simp [lockLine, String.append_assoc]

theorem OS.content_of_nodes (os : OS) (p : String) (c : String)
    (h : os.nodes p = some (.file c)) : os.content p = some c := by
  simp [OS.content, h]

/-- C9. When the checksum of the file at `p` cannot be made (the file cannot
be opened or read), the hook returns the checksum-creation error carrying the
declared path of `f` and the cause, and no entry of the filesystem, the
ledger included, and no descriptor changes.  A later hook call for a file
`g` whose written path resolves to a regular file still succeeds, with the
ledger appendable as `Lock` leaves it, and appends the record of `g`. -/
theorem checksum_failure_skips_only_that_record (l : Locker) (p : String) (f : Nat)
    (w : World) (e : Errno) (h : (l.createChecksum p w.os).1 = .error e) :
    (l.postProcessGeneratedFile p f w).1 =
        some (Error.errFailedToCreateChecksum (w.heap f).Path e) ∧
      (l.postProcessGeneratedFile p f w).2.os.nodes = w.os.nodes ∧
      (l.postProcessGeneratedFile p f w).2.os.content l.lockFilename =
        w.os.content l.lockFilename ∧
      (l.postProcessGeneratedFile p f w).2.heap = w.heap ∧
      ∀ (g : Nat) (q content : String), w.os.resolve q = .ok () →
        w.os.nodes q = some (.file content) → w.os.resolve l.lockFilename = .ok () →
        w.os.nodes l.lockFilename ≠ some .dir →
        (l.postProcessGeneratedFile q g (l.postProcessGeneratedFile p f w).2).1 = none ∧
          (l.postProcessGeneratedFile q g
              (l.postProcessGeneratedFile p f w).2).2.os.content l.lockFilename =
            some ((w.os.content l.lockFilename).getD "" ++ (w.heap g).Path ++ "::" ++
              sha256Hex content ++ "\n") := by
  have hnodes := Locker.createChecksum_nodes l p w.os
  have hpost : l.postProcessGeneratedFile p f w =
      (some (Error.errFailedToCreateChecksum (w.heap f).Path e),
        { w with os := (l.createChecksum p w.os).2 }) := by
    unfold Locker.postProcessGeneratedFile
    cases hc : l.createChecksum p w.os with
    | mk r os1 =>
      rw [hc] at h
      simp only at h
      subst h
      rfl
  rw [hpost]
  refine ⟨rfl, hnodes, by simp [OS.content, hnodes], rfl, ?_⟩
  intro g q content hr hn hlr hln
  have hr1 : (l.createChecksum p w.os).2.resolve q = .ok () := by
    simpa [OS.resolve, hnodes] using hr
  have hlr1 : (l.createChecksum p w.os).2.resolve l.lockFilename = .ok () := by
    simpa [OS.resolve, hnodes] using hlr
  have hready := Locker.postProcess_of_ready l q g
    { w with os := (l.createChecksum p w.os).2 } content hr1 (by simpa [hnodes] using hn)
    hlr1 (by simpa [hnodes] using hln)
  refine ⟨hready, ?_⟩
  obtain ⟨c2, hc2, hn2, _⟩ := Locker.postProcess_ok l q g _ hready
  apply OS.content_of_nodes
  rw [hn2]
  simp only [if_true]
  have hc2' : c2 = content := by
    have : w.os.content q = some c2 := by simpa [OS.content, hnodes] using hc2
    simpa [OS.content, hn] using this.symm
  subst hc2'
  simp [OS.content, hnodes, lockLine, String.append_assoc]

theorem checksum_failure_skips_only_that_record_witness :
    (exampleLocker.createChecksum "/w/missing.go"
        (exampleLocker.Lock exampleWorld).world.os).1 = .error Errno.ENOENT ∧
      (exampleLocker.postProcessGeneratedFile "/w/missing.go" 0
          (exampleLocker.Lock exampleWorld).world).1 =
        some (Error.errFailedToCreateChecksum "a.go" Errno.ENOENT) :=
  ⟨by rfl, (checksum_failure_skips_only_that_record exampleLocker "/w/missing.go" 0
    (exampleLocker.Lock exampleWorld).world Errno.ENOENT (by rfl)).1⟩

/-! ## The hooks that `Lock` installs -/

theorem Locker.installHooks_apply (l : Locker) (files : List Nat) (heap : Nat → File) (a : Nat) :
    l.installHooks files heap a =
      if a ∈ files then { heap a with FinalizeFunc := some ⟨l, a⟩ } else heap a := by
  induction files generalizing heap with
  | nil => simp [Locker.installHooks]
  | cons x rest ih =>
    simp only [Locker.installHooks, ih, List.mem_cons]
    by_cases hr : a ∈ rest
    · by_cases hx : a = x <;> simp [hr, hx]
    · by_cases hx : a = x <;> simp [hr, hx]

theorem Locker.installHooks_Path (l : Locker) (files : List Nat) (heap : Nat → File) (a : Nat) :
    (l.installHooks files heap a).Path = (heap a).Path := by
  rw [Locker.installHooks_apply]
  split <;> rfl

/-- C6. After a successful `Lock`, the hook stored in the descriptor at
position `i` of the collection is the closure over that very descriptor, and
calling it, in the state `Lock` leaves or in any later state of the
filesystem, appends a record whose path field is the declared path of that
descriptor. -/
theorem installed_hook_records_its_own_file (l : Locker) (w : World) (i : Nat)
    (hi : i < l.files.length) (hok : (l.Lock w).err = none) :
    ((l.Lock w).world.heap (l.files.get ⟨i, hi⟩)).FinalizeFunc =
        some ⟨l, l.files.get ⟨i, hi⟩⟩ ∧
      ∀ (p : String) (os : OS),
        (callFinalizeFunc (l.files.get ⟨i, hi⟩) p ⟨os, (l.Lock w).world.heap⟩).1 = none →
        ∃ content, os.content p = some content ∧
          (callFinalizeFunc (l.files.get ⟨i, hi⟩) p
              ⟨os, (l.Lock w).world.heap⟩).2.os.content l.lockFilename =
            some ((os.content l.lockFilename).getD "" ++ (w.heap (l.files.get ⟨i, hi⟩)).Path ++
              "::" ++ sha256Hex content ++ "\n") := by
  obtain ⟨_, _, _, hw⟩ := Locker.Lock_ok l w hok
  have hmem : l.files.get ⟨i, hi⟩ ∈ l.files := List.get_mem _ _ _
  have hslot : ((l.Lock w).world.heap (l.files.get ⟨i, hi⟩)).FinalizeFunc =
      some ⟨l, l.files.get ⟨i, hi⟩⟩ := by
    rw [hw]
    simp only [Locker.installHooks_apply, hmem, if_true]
  refine ⟨hslot, ?_⟩
  intro p os hcall
  unfold callFinalizeFunc at hcall ⊢
  simp only [hslot] at hcall ⊢
  obtain ⟨content, hc, hn, _⟩ := Locker.postProcess_ok l p _ _ hcall
  refine ⟨content, hc, ?_⟩
  apply OS.content_of_nodes
  rw [hn]
  simp only [if_true, hw, Locker.installHooks_Path, lockLine, String.append_assoc]

theorem installed_hook_records_its_own_file_witness :
    (exampleLocker.Lock exampleWorld).err = none ∧
      ((exampleLocker.Lock exampleWorld).world.heap (exampleLocker.files.get ⟨1, by decide⟩)).FinalizeFunc =
        some ⟨exampleLocker, exampleLocker.files.get ⟨1, by decide⟩⟩ :=
  ⟨by decide, (installed_hook_records_its_own_file exampleLocker exampleWorld 1 (by decide)
    (by decide)).1⟩


/-! ## A whole pass: `Lock`, then every hook -/

theorem splitOnChar_ne_nil (sep : Char) (s : List Char) : splitOnChar sep s ≠ [] := by
  cases s with
  | nil => simp [splitOnChar]
  | cons c cs =>
    unfold splitOnChar
    split <;> simp

theorem splitOnChar_append_sep (sep : Char) (a b : List Char) :
    splitOnChar sep (a ++ sep :: b) = splitOnChar sep a ++ splitOnChar sep b := by
  induction a with
  | nil => simp [splitOnChar]
  | cons c cs ih =>
    by_cases hc : c = sep
    · simp [splitOnChar, hc, ih]
    · have hne := splitOnChar_ne_nil sep cs
      cases hs : splitOnChar sep cs with
      | nil => exact absurd hs hne
      | cons x xs =>
        rw [hs] at ih
        simp [splitOnChar, hc, ih, hs]

theorem splitOnChar_of_not_mem (sep : Char) (a : List Char) (h : sep ∉ a) :
    splitOnChar sep a = [a] := by
  induction a with
  | nil => simp [splitOnChar]
  | cons c cs ih =>
    have hc : c ≠ sep := fun hcs => h (by simp [hcs])
    have hcs : sep ∉ cs := fun hm => h (List.mem_cons_of_mem _ hm)
    simp [splitOnChar, hc, ih hcs]

theorem Split_ledgerOf (lines : List String) (h : ∀ ln ∈ lines, '\n' ∉ ln.data) :
    Split (ledgerOf lines) '\n' = lines ++ [""] := by
  induction lines with
  | nil => simp [Split, ledgerOf, splitOnChar]
  | cons ln rest ih =>
    have hrest := ih (fun x hx => h x (List.mem_cons_of_mem _ hx))
    have hln := h ln (List.mem_cons_self _ _)
    unfold Split at hrest ⊢
    have hdata : (ledgerOf (ln :: rest)).data = ln.data ++ '\n' :: (ledgerOf rest).data := by
      simp [ledgerOf, String.data_append]
    rw [hdata, splitOnChar_append_sep, splitOnChar_of_not_mem _ _ hln]
    simp [hrest]

theorem getD_of_forall {α : Type} (P : α → Prop) (l : List α) (d : α) (n : Nat)
    (hl : ∀ x ∈ l, P x) (hd : P d) : P (l.getD n d) := by
  induction l generalizing n with
  | nil => simpa using hd
  | cons x xs ih =>
    cases n with
    | zero => simpa using hl x (List.mem_cons_self _ _)
    | succ m => simpa using ih m (fun y hy => hl y (List.mem_cons_of_mem _ hy))

theorem hexDigit_ne_newline (n : Nat) : hexDigit n ≠ '\n' := by
  unfold hexDigit
  apply getD_of_forall (fun c => c ≠ '\n')
  · decide
  · decide

/-- A checksum consists of hexadecimal digits: it contains no newline. -/
theorem sha256Hex_no_newline (content : String) : '\n' ∉ (sha256Hex content).data := by
  unfold sha256Hex
  simp only [List.mem_flatMap, not_exists, not_and]
  intro w _ hmem
  simp only [hexWord, List.mem_cons, List.mem_singleton, List.not_mem_nil, or_false] at hmem
  rcases hmem with h | h | h | h | h | h | h | h <;> exact hexDigit_ne_newline _ h.symm


/-- C3 (as amended).  A successful hook call for the descriptor `f` with the
written path `p` finds a regular file at `p` and turns the ledger content `c`
into `c` followed by the declared path of `f`, `::`, the hex SHA-256 of the
content at `p` and a newline (a missing ledger counts as empty); every other
file and the descriptors stay as they were.  When the declared path contains
no newline, the appended text is exactly one line: split at newlines it is
the record and an empty last piece. -/
theorem hook_appends_exactly_one_record (l : Locker) (p : String) (f : Nat) (w : World)
    (h : (l.postProcessGeneratedFile p f w).1 = none) :
    ∃ content, w.os.content p = some content ∧
      (∀ c, w.os.content l.lockFilename = some c →
        (l.postProcessGeneratedFile p f w).2.os.content l.lockFilename =
          some (c ++ (w.heap f).Path ++ "::" ++ sha256Hex content ++ "\n")) ∧
      (w.os.content l.lockFilename = none →
        (l.postProcessGeneratedFile p f w).2.os.content l.lockFilename =
          some ((w.heap f).Path ++ "::" ++ sha256Hex content ++ "\n")) ∧
      (∀ q, q ≠ l.lockFilename →
        (l.postProcessGeneratedFile p f w).2.os.nodes q = w.os.nodes q) ∧
      (l.postProcessGeneratedFile p f w).2.heap = w.heap ∧
      ('\n' ∉ (w.heap f).Path.data →
        Split ((w.heap f).Path ++ "::" ++ sha256Hex content ++ "\n") '\n' =
          [(w.heap f).Path ++ "::" ++ sha256Hex content, ""]) := by
  obtain ⟨content, hc, hn, hh⟩ := Locker.postProcess_ok l p f w h
  refine ⟨content, hc, ?_, ?_, ?_, hh, ?_⟩
  · intro c hprev
    rw [← lockLine_assoc]
    apply OS.content_of_nodes
    rw [hn]
    simp [hprev]
  · intro hprev
    apply OS.content_of_nodes
    rw [hn]
    simp [hprev, lockLine]
  · intro q hq
    rw [hn]
    simp [hq]
  · intro hpath
    have hline : '\n' ∉ ((w.heap f).Path ++ "::" ++ sha256Hex content).data := by
      have hh := sha256Hex_no_newline content
      simp only [String.data_append, List.mem_append, not_or]
      exact ⟨⟨hpath, by decide⟩, hh⟩
    have hsplit := Split_ledgerOf [(w.heap f).Path ++ "::" ++ sha256Hex content] (by
      intro ln hln
      rw [List.mem_singleton] at hln
      subst hln
      exact hline)
    simpa [ledgerOf] using hsplit

theorem hook_appends_exactly_one_record_witness :
    (exampleLocker.postProcessGeneratedFile "/w/a.go" 0 oneRecordWorld).1 = none ∧
      oneRecordWorld.os.content exampleLocker.lockFilename =
        some "b.go::e3b0c44298fc1c149afbf4c8996fb92427ae41e4649b934ca495991b7852b855\n" ∧
      ∃ content, oneRecordWorld.os.content "/w/a.go" = some content ∧
      (∀ c, oneRecordWorld.os.content exampleLocker.lockFilename = some c →
        (exampleLocker.postProcessGeneratedFile "/w/a.go" 0
            oneRecordWorld).2.os.content exampleLocker.lockFilename =
          some (c ++ (oneRecordWorld.heap 0).Path ++ "::" ++ sha256Hex content ++ "\n")) ∧
      (oneRecordWorld.os.content exampleLocker.lockFilename = none →
        (exampleLocker.postProcessGeneratedFile "/w/a.go" 0
            oneRecordWorld).2.os.content exampleLocker.lockFilename =
          some ((oneRecordWorld.heap 0).Path ++ "::" ++ sha256Hex content ++ "\n")) ∧
      (∀ q, q ≠ exampleLocker.lockFilename →
        (exampleLocker.postProcessGeneratedFile "/w/a.go" 0 oneRecordWorld).2.os.nodes q =
          oneRecordWorld.os.nodes q) ∧
      (exampleLocker.postProcessGeneratedFile "/w/a.go" 0 oneRecordWorld).2.heap =
        oneRecordWorld.heap ∧
      ('\n' ∉ (oneRecordWorld.heap 0).Path.data →
        Split ((oneRecordWorld.heap 0).Path ++ "::" ++ sha256Hex content ++ "\n") '\n' =
          [(oneRecordWorld.heap 0).Path ++ "::" ++ sha256Hex content, ""]) :=
  ⟨by decide, by decide, hook_appends_exactly_one_record exampleLocker "/w/a.go" 0
    oneRecordWorld (by decide)⟩

/-- C3 fails as stated: with the declared path `a\nb.go` one successful hook
call on the empty ledger appends text with two newlines, which splits into
two lines and an empty last piece: two lines are appended, not one. -/
theorem hook_appends_two_lines_counterexample :
    (singleLocker.Lock newlineWorld).err = none ∧
      (singleLocker.Lock newlineWorld).world.os.content singleLocker.lockFilename = some "" ∧
      (singleLocker.postProcessGeneratedFile "/w/a.go" 0
        (singleLocker.Lock newlineWorld).world).1 = none ∧
      (singleLocker.postProcessGeneratedFile "/w/a.go" 0
          (singleLocker.Lock newlineWorld).world).2.os.content singleLocker.lockFilename =
        some "a\nb.go::ba7816bf8f01cfea414140de5dae2223b00361a396177a9cb410ff61f20015ad\n" ∧
      Split "a\nb.go::ba7816bf8f01cfea414140de5dae2223b00361a396177a9cb410ff61f20015ad\n" '\n' =
        ["a", "b.go::ba7816bf8f01cfea414140de5dae2223b00361a396177a9cb410ff61f20015ad", ""] ∧
      (("a\nb.go::ba7816bf8f01cfea414140de5dae2223b00361a396177a9cb410ff61f20015ad\n".data.filter
        (fun ch => decide (ch = '\n'))).length = 2) := by
  refine ⟨by decide, by decide, by decide, by decide, by decide, by decide⟩

/-! ## Traces of whole runs -/

theorem truncations_append (p : String) (t t2 : List Event) :
    truncations p (t ++ t2) = truncations p t + truncations p t2 := by
  simp [truncations, List.filter_append]

theorem truncations_of_none (p : String) (t : List Event)
    (h : ∀ e ∈ t, isTruncate p e = false) : truncations p t = 0 := by
  simp only [truncations, List.length_eq_zero, List.filter_eq_nil_iff]
  intro e he
  simp [h e he]

theorem truncatedBeforeAppend_append_quiet (p : String) (t t2 : List Event)
    (h : truncatedBeforeAppend p t = true) (h2 : ∀ e ∈ t2, isAppend p e = false) :
    truncatedBeforeAppend p (t ++ t2) = true := by
  induction t with
  | nil =>
    induction t2 with
    | nil => rfl
    | cons e rest ih =>
      simp only [List.nil_append, truncatedBeforeAppend] at ih ⊢
      by_cases ht : isTruncate p e = true
      · simp [ht]
      · simp only [ht, h2 e (List.mem_cons_self _ _)]
        exact ih (fun x hx => h2 x (List.mem_cons_of_mem _ hx))
  | cons e rest ih =>
    simp only [List.cons_append, truncatedBeforeAppend] at h ⊢
    by_cases ht : isTruncate p e = true
    · simp [ht]
    · by_cases ha : isAppend p e = true
      · simp [ht, ha] at h
      · simp only [ht, ha] at h ⊢
        exact ih h

theorem truncatedBeforeAppend_append_any (p : String) (t t2 : List Event)
    (h : truncatedBeforeAppend p t = true) (hpos : 0 < truncations p t) :
    truncatedBeforeAppend p (t ++ t2) = true := by
  induction t with
  | nil => simp [truncations] at hpos
  | cons e rest ih =>
    simp only [List.cons_append, truncatedBeforeAppend] at h ⊢
    by_cases ht : isTruncate p e = true
    · simp [ht]
    · by_cases ha : isAppend p e = true
      · simp [ht, ha] at h
      · simp only [ht, ha] at h ⊢
        apply ih h
        simpa [truncations, List.filter_cons, ht] using hpos


theorem OS.Stat_snd (os : OS) (p : String) : ∃ b, (os.Stat p).2 = os.log .stat p b := by
  unfold OS.Stat
  cases os.resolve p with
  | error e => exact ⟨false, rfl⟩
  | ok u =>
    cases os.nodes p with
    | none => exact ⟨false, rfl⟩
    | some n => exact ⟨true, rfl⟩

theorem OS.Mkdir_trace (os : OS) (p : String) :
    ∃ b, (os.Mkdir p).2.trace = os.trace ++ [⟨.mkdir, p, b⟩] := by
  unfold OS.Mkdir
  cases os.resolve p with
  | error e => exact ⟨false, rfl⟩
  | ok u =>
    cases os.nodes p with
    | none => exact ⟨true, rfl⟩
    | some n => exact ⟨false, rfl⟩

/-- `os.MkdirAll` makes only `stat` and `mkdir` calls. -/
theorem OS.mkdirAllAux_trace (n : Nat) (os : OS) (p : String) :
    ∃ t, (OS.mkdirAllAux n os p).2.trace = os.trace ++ t ∧
      ∀ e ∈ t, e.call = Syscall.stat ∨ e.call = Syscall.mkdir := by
  induction n generalizing os p with
  | zero =>
    unfold OS.mkdirAllAux
    obtain ⟨b, hb⟩ := OS.Stat_snd os p
    cases hs : os.Stat p with
    | mk r os1 =>
      rw [hs] at hb
      simp only at hb
      subst hb
      cases r with
      | ok nd => cases nd <;> exact ⟨[⟨.stat, p, b⟩], rfl, by simp⟩
      | error e =>
        simp only
        obtain ⟨b2, hb2⟩ := OS.Mkdir_trace (os.log .stat p b) p
        cases hm : (os.log .stat p b).Mkdir p with
        | mk r2 os3 =>
          rw [hm] at hb2
          simp only at hb2
          cases r2 with
          | ok u => exact ⟨[⟨.stat, p, b⟩, ⟨.mkdir, p, b2⟩], by simp [hb2], by simp⟩
          | error e2 =>
            simp only
            obtain ⟨b3, hb3⟩ := OS.Stat_snd os3 p
            refine ⟨[⟨.stat, p, b⟩, ⟨.mkdir, p, b2⟩, ⟨.stat, p, b3⟩], ?_, by simp⟩
            cases hs3 : os3.Stat p with
            | mk r3 os4 =>
              rw [hs3] at hb3
              simp only at hb3
              subst hb3
              cases r3 with
              | ok nd => cases nd <;> simp [hb2]
              | error e3 => simp [hb2]
  | succ k ih =>
    unfold OS.mkdirAllAux
    obtain ⟨b, hb⟩ := OS.Stat_snd os p
    cases hs : os.Stat p with
    | mk r os1 =>
      rw [hs] at hb
      simp only at hb
      subst hb
      cases r with
      | ok nd => cases nd <;> exact ⟨[⟨.stat, p, b⟩], rfl, by simp⟩
      | error e =>
        simp only
        have hmade : ∃ t, (if trimParent p ≠ "" then
              OS.mkdirAllAux k (os.log .stat p b) (trimParent p)
            else (Except.ok (), os.log .stat p b)).2.trace = os.trace ++ t ∧
            ∀ e ∈ t, e.call = Syscall.stat ∨ e.call = Syscall.mkdir := by
          by_cases hp : trimParent p ≠ ""
          · obtain ⟨t, ht, hq⟩ := ih (os.log .stat p b) (trimParent p)
            refine ⟨⟨.stat, p, b⟩ :: t, ?_, ?_⟩
            · simp [hp, ht]
            · intro e he
              rcases List.mem_cons.mp he with rfl | hmem
              · exact Or.inl rfl
              · exact hq e hmem
          · exact ⟨[⟨.stat, p, b⟩], by simp [hp], by simp⟩
        obtain ⟨t, ht, hq⟩ := hmade
        cases hmk : (if trimParent p ≠ "" then
              OS.mkdirAllAux k (os.log .stat p b) (trimParent p)
            else (Except.ok (), os.log .stat p b)) with
        | mk r1 os2 =>
          rw [hmk] at ht
          simp only at ht
          cases r1 with
          | error e1 => exact ⟨t, ht, hq⟩
          | ok u1 =>
            simp only
            obtain ⟨b2, hb2⟩ := OS.Mkdir_trace os2 p
            cases hm : os2.Mkdir p with
            | mk r2 os3 =>
              rw [hm] at hb2
              simp only at hb2
              cases r2 with
              | ok u =>
                refine ⟨t ++ [⟨.mkdir, p, b2⟩], by simp [hb2, ht], ?_⟩
                intro e he
                rcases List.mem_append.mp he with h1 | h1
                · exact hq e h1
                · simp at h1; subst h1; exact Or.inr rfl
              | error e2 =>
                simp only
                obtain ⟨b3, hb3⟩ := OS.Stat_snd os3 p
                refine ⟨t ++ [⟨.mkdir, p, b2⟩, ⟨.stat, p, b3⟩], ?_, ?_⟩
                · cases hs3 : os3.Stat p with
                  | mk r3 os4 =>
                    rw [hs3] at hb3
                    simp only at hb3
                    subst hb3
                    cases r3 with
                    | ok nd => cases nd <;> simp [hb2, ht]
                    | error e3 => simp [hb2, ht]
                · intro e he
                  rcases List.mem_append.mp he with h1 | h1
                  · exact hq e h1
                  · simp at h1
                    rcases h1 with rfl | rfl
                    · exact Or.inr rfl
                    · exact Or.inl rfl


theorem OS.Create_trace (os : OS) (p : String) :
    ((os.Create p).1 = .ok () ∧ (os.Create p).2.trace = os.trace ++ [⟨.create, p, true⟩]) ∨
      (∃ e, (os.Create p).1 = .error e ∧
        (os.Create p).2.trace = os.trace ++ [⟨.create, p, false⟩]) := by
  unfold OS.Create
  cases os.resolve p with
  | error e => exact Or.inr ⟨e, rfl, rfl⟩
  | ok u =>
    cases os.nodes p with
    | none => exact Or.inl ⟨rfl, rfl⟩
    | some n =>
      cases n with
      | dir => exact Or.inr ⟨_, rfl, rfl⟩
      | file c => exact Or.inl ⟨rfl, rfl⟩

theorem isTruncate_of_quiet (p : String) (e : Event)
    (h : e.call = Syscall.stat ∨ e.call = Syscall.mkdir) : isTruncate p e = false := by
  rcases h with h | h <;> simp [isTruncate, h]

theorem isAppend_of_quiet (p : String) (e : Event)
    (h : e.call = Syscall.stat ∨ e.call = Syscall.mkdir) : isAppend p e = false := by
  rcases h with h | h <;> simp [isAppend, h]

/-- The trace of `prepareLockfile`: no append, and one truncation of the
ledger exactly when it succeeds. -/
theorem Locker.prepareLockfile_trace (l : Locker) (os : OS) :
    ∃ t, (l.prepareLockfile os).2.trace = os.trace ++ t ∧
      (∀ e ∈ t, isAppend l.lockFilename e = false) ∧
      truncations l.lockFilename t = if (l.prepareLockfile os).1 = none then 1 else 0 := by
  have hmade : ∃ t, (match os.Stat (Dir l.lockFilename) with
      | (.error err, os1) =>
        if IsNotExist err then
          match os1.MkdirAll (Dir l.lockFilename) with
          | (.error err2, os2) => (some err2, os2)
          | (.ok _, os2) => (none, os2)
        else (none, os1)
      | (.ok _, os1) => ((none : Option Errno), os1)).2.trace = os.trace ++ t ∧
      ∀ e ∈ t, e.call = Syscall.stat ∨ e.call = Syscall.mkdir := by
    obtain ⟨b, hb⟩ := OS.Stat_snd os (Dir l.lockFilename)
    cases hs : os.Stat (Dir l.lockFilename) with
    | mk r os1 =>
      rw [hs] at hb
      simp only at hb
      subst hb
      cases r with
      | ok nd => exact ⟨[⟨.stat, Dir l.lockFilename, b⟩], rfl, by simp⟩
      | error err =>
        simp only
        by_cases hne : IsNotExist err = true
        · simp only [hne, if_true]
          obtain ⟨t, ht, hq⟩ := OS.mkdirAllAux_trace (Dir l.lockFilename).length
            (os.log .stat (Dir l.lockFilename) b) (Dir l.lockFilename)
          refine ⟨⟨.stat, Dir l.lockFilename, b⟩ :: t, ?_, ?_⟩
          · unfold OS.MkdirAll
            cases hm : OS.mkdirAllAux (Dir l.lockFilename).length
                (os.log .stat (Dir l.lockFilename) b) (Dir l.lockFilename) with
            | mk r2 os2 =>
              rw [hm] at ht
              simp only at ht
              cases r2 <;> simp [ht]
          · intro e he
            rcases List.mem_cons.mp he with rfl | hmem
            · exact Or.inl rfl
            · exact hq e hmem
        · simp only [hne]
          exact ⟨[⟨.stat, Dir l.lockFilename, b⟩], rfl, by simp⟩
  unfold Locker.prepareLockfile
  obtain ⟨t, ht, hq⟩ := hmade
  generalize (match os.Stat (Dir l.lockFilename) with
      | (.error err, os1) =>
        if IsNotExist err then
          match os1.MkdirAll (Dir l.lockFilename) with
          | (.error err2, os2) => (some err2, os2)
          | (.ok _, os2) => (none, os2)
        else (none, os1)
      | (.ok _, os1) => ((none : Option Errno), os1)) = made at ht ⊢
  obtain ⟨r, os2⟩ := made
  simp only at ht
  have hquiet : truncations l.lockFilename t = 0 :=
    truncations_of_none _ _ (fun e he => isTruncate_of_quiet _ e (hq e he))
  cases r with
  | some err =>
    exact ⟨t, ht, fun e he => isAppend_of_quiet _ e (hq e he), by simp [hquiet]⟩
  | none =>
    simp only
    rcases OS.Create_trace os2 l.lockFilename with ⟨hok, htr⟩ | ⟨e, herr, htr⟩
    · have hc : os2.Create l.lockFilename = (Except.ok (), (os2.Create l.lockFilename).2) :=
        Prod.ext hok rfl
      generalize (os2.Create l.lockFilename).2 = os3 at hc htr
      simp only [hc]
      refine ⟨t ++ [⟨.create, l.lockFilename, true⟩], by simp [htr, ht], ?_, ?_⟩
      · intro e he
        rcases List.mem_append.mp he with h1 | h1
        · exact isAppend_of_quiet _ e (hq e h1)
        · simp at h1; subst h1; simp [isAppend]
      · rw [truncations_append, hquiet]
        simp [truncations, isTruncate]
    · have hc : os2.Create l.lockFilename = (Except.error e, (os2.Create l.lockFilename).2) :=
        Prod.ext herr rfl
      generalize (os2.Create l.lockFilename).2 = os3 at hc htr
      simp only [hc]
      refine ⟨t ++ [⟨.create, l.lockFilename, false⟩], by simp [htr, ht], ?_, ?_⟩
      · intro e he
        rcases List.mem_append.mp he with h1 | h1
        · exact isAppend_of_quiet _ e (hq e h1)
        · simp at h1; subst h1; simp [isAppend]
      · rw [truncations_append, hquiet]
        simp [truncations, isTruncate]


theorem OS.OpenAppend_trace (os : OS) (p : String) :
    ∃ b, (os.OpenAppend p).2.trace = os.trace ++ [⟨.openAppend, p, b⟩] := by
  unfold OS.OpenAppend
  cases os.resolve p with
  | error e => exact ⟨false, rfl⟩
  | ok u =>
    cases os.nodes p with
    | none => exact ⟨true, rfl⟩
    | some n => cases n <;> first | exact ⟨true, rfl⟩ | exact ⟨false, rfl⟩

theorem OS.Write_trace (os : OS) (p data : String) :
    ∃ b, (os.Write p data).2.trace = os.trace ++ [⟨.write, p, b⟩] := by
  unfold OS.Write
  cases os.nodes p with
  | none => exact ⟨false, rfl⟩
  | some n => cases n <;> first | exact ⟨true, rfl⟩ | exact ⟨false, rfl⟩

theorem Locker.writeChecksum_trace (l : Locker) (file sum : String) (os : OS) :
    ∃ t, (l.writeChecksumToLockFile file sum os).2.trace = os.trace ++ t ∧
      ∀ e ∈ t, e.call = Syscall.openAppend ∨ e.call = Syscall.write := by
  unfold Locker.writeChecksumToLockFile
  obtain ⟨b, hb⟩ := OS.OpenAppend_trace os l.lockFilename
  cases ho : os.OpenAppend l.lockFilename with
  | mk r os1 =>
    rw [ho] at hb
    simp only at hb
    cases r with
    | error e => exact ⟨_, hb, by simp⟩
    | ok u =>
      simp only
      obtain ⟨b2, hb2⟩ := OS.Write_trace os1 l.lockFilename (lockLine file sum)
      cases hw : os1.Write l.lockFilename (lockLine file sum) with
      | mk r2 os2 =>
        rw [hw] at hb2
        simp only at hb2
        refine ⟨[⟨.openAppend, l.lockFilename, b⟩, ⟨.write, l.lockFilename, b2⟩], ?_, by simp⟩
        cases r2 <;> simp [hb2, hb]

/-- A hook call never creates or truncates a file and leaves the heap alone. -/
theorem Locker.postProcess_trace (l : Locker) (p : String) (f : Nat) (w : World) (q : String) :
    (l.postProcessGeneratedFile p f w).2.heap = w.heap ∧
      ∃ t, (l.postProcessGeneratedFile p f w).2.os.trace = w.os.trace ++ t ∧
        truncations q t = 0 := by
  unfold Locker.postProcessGeneratedFile
  obtain ⟨t1, ht1, hq1⟩ := Locker.createChecksum_snd l p w.os
  have hz1 : truncations q t1 = 0 := truncations_of_none _ _ (fun e he => by
    rcases hq1 e he with h | h <;> simp [isTruncate, h])
  cases hc : l.createChecksum p w.os with
  | mk r os1 =>
    rw [hc] at ht1
    simp only at ht1
    cases r with
    | error e => exact ⟨rfl, t1, by simp [ht1], hz1⟩
    | ok sum =>
      simp only
      obtain ⟨t2, ht2, hq2⟩ := Locker.writeChecksum_trace l (w.heap f).Path sum os1
      have hz2 : truncations q t2 = 0 := truncations_of_none _ _ (fun e he => by
        rcases hq2 e he with h | h <;> simp [isTruncate, h])
      cases hw : l.writeChecksumToLockFile (w.heap f).Path sum os1 with
      | mk r2 os2 =>
        rw [hw] at ht2
        simp only at ht2
        have : os2.trace = w.os.trace ++ (t1 ++ t2) := by simp [ht2, ht1]
        cases r2 with
        | some e => exact ⟨rfl, t1 ++ t2, this, by simp [truncations_append, hz1, hz2]⟩
        | none => exact ⟨rfl, t1 ++ t2, this, by simp [truncations_append, hz1, hz2]⟩

theorem locksSucceeded_le (l : Locker) (ops : List Op) (w : World) :
    locksSucceeded l ops w ≤ ops.count Op.lock := by
  induction ops generalizing w with
  | nil => simp [locksSucceeded]
  | cons op rest ih =>
    cases op with
    | lock =>
      have := ih (l.Lock w).world
      simp only [locksSucceeded, List.count_cons_self]
      split <;> omega
    | finalize a s =>
      have := ih (callFinalizeFunc a s w).2
      simpa [locksSucceeded, List.count_cons] using this

/-- The invariant of a run: the new part of the trace never appends to the
ledger before truncating it, a hook is installed only after a truncation,
and every successful `Lock` adds exactly one truncation. -/
theorem run_trace_invariant (l : Locker) (t0 : List Event) (ops : List Op) (w : World)
    (t : List Event) (htrace : w.os.trace = t0 ++ t)
    (hguard : truncatedBeforeAppend l.lockFilename t = true)
    (hhooks : (∃ a, (w.heap a).FinalizeFunc ≠ none) → 0 < truncations l.lockFilename t) :
    ∃ t2, (run l ops w).os.trace = t0 ++ t2 ∧
      truncatedBeforeAppend l.lockFilename t2 = true ∧
      truncations l.lockFilename t2 = truncations l.lockFilename t + locksSucceeded l ops w := by
  induction ops generalizing w t with
  | nil => exact ⟨t, htrace, hguard, by simp [locksSucceeded]⟩
  | cons op rest ih =>
    cases op with
    | lock =>
      simp only [run, List.foldl_cons, step, locksSucceeded]
      by_cases hok : (l.Lock w).err = none
      · obtain ⟨_, hprep, _, hw⟩ := Locker.Lock_ok l w hok
        obtain ⟨t1, ht1, hq1, hn1⟩ := Locker.prepareLockfile_trace l w.os
        simp only [hprep, if_true] at hn1
        obtain ⟨t2, h1, h2, h3⟩ := ih (l.Lock w).world (t ++ t1)
          (by rw [hw]; simp [ht1, htrace])
          (truncatedBeforeAppend_append_quiet _ _ _ hguard hq1)
          (fun _ => by rw [truncations_append, hn1]; omega)
        refine ⟨t2, h1, h2, ?_⟩
        rw [h3, truncations_append, hn1]
        simp only [hok, if_true]
        omega
      · have hsame : (l.Lock w).world.heap = w.heap ∧
            ∃ t1, (l.Lock w).world.os.trace = w.os.trace ++ t1 ∧
              (∀ e ∈ t1, isAppend l.lockFilename e = false) ∧
              truncations l.lockFilename t1 = 0 := by
          unfold Locker.Lock at hok ⊢
          by_cases hl : l.files.length = 0
          · simp only [hl, if_true]
            exact ⟨trivial, [], by simp, by simp, rfl⟩
          · simp only [hl, if_false] at hok ⊢
            obtain ⟨t1, ht1, hq1, hn1⟩ := Locker.prepareLockfile_trace l w.os
            cases hp : l.prepareLockfile w.os with
            | mk r os1 =>
              rw [hp] at ht1 hn1
              cases r with
              | none => simp [hp] at hok
              | some e => exact ⟨rfl, t1, ht1, hq1, by simpa using hn1⟩
        obtain ⟨hheap, t1, ht1, hq1, hn1⟩ := hsame
        obtain ⟨t2, h1, h2, h3⟩ := ih (l.Lock w).world (t ++ t1)
          (by simp [ht1, htrace])
          (truncatedBeforeAppend_append_quiet _ _ _ hguard hq1)
          (fun h => by rw [truncations_append, hn1]; rw [hheap] at h; simpa using hhooks h)
        refine ⟨t2, h1, h2, ?_⟩
        rw [h3, truncations_append, hn1]
        simp only [hok, if_false]
        omega
    | finalize a s =>
      simp only [run, List.foldl_cons, step, locksSucceeded]
      cases hslot : (w.heap a).FinalizeFunc with
      | none =>
        have hcall : callFinalizeFunc a s w = (none, w) := by simp [callFinalizeFunc, hslot]
        rw [hcall]
        exact ih w t htrace hguard hhooks
      | some c =>
        have hcall : callFinalizeFunc a s w = c.l.postProcessGeneratedFile s c.f w := by
          simp [callFinalizeFunc, hslot]
        rw [hcall]
        obtain ⟨hheap, t1, ht1, hn1⟩ := Locker.postProcess_trace c.l s c.f w l.lockFilename
        have hpos : 0 < truncations l.lockFilename t := hhooks ⟨a, by simp [hslot]⟩
        obtain ⟨t2, h1, h2, h3⟩ := ih (c.l.postProcessGeneratedFile s c.f w).2 (t ++ t1)
          (by simp [ht1, htrace])
          (truncatedBeforeAppend_append_any _ _ _ hguard hpos)
          (fun _ => by rw [truncations_append]; omega)
        refine ⟨t2, h1, h2, ?_⟩
        rw [h3, truncations_append, hn1]
        omega


/-- C10 (as amended).  Start with no hook installed and run any sequence of
`Lock` calls and hook calls on one locker.  In the system calls the run adds,
every append to the ledger comes after a creation or truncation of the
ledger, and the ledger is truncated exactly once per successful `Lock`: so
at most once when `Lock` is called at most once. -/
theorem ledger_truncated_before_appends (l : Locker) (ops : List Op) (w : World)
    (hfresh : ∀ a, (w.heap a).FinalizeFunc = none) :
    ∃ t, (run l ops w).os.trace = w.os.trace ++ t ∧
      truncatedBeforeAppend l.lockFilename t = true ∧
      truncations l.lockFilename t = locksSucceeded l ops w ∧
      (ops.count Op.lock ≤ 1 → truncations l.lockFilename t ≤ 1) := by
  obtain ⟨t, h1, h2, h3⟩ := run_trace_invariant l w.os.trace ops w [] (by simp) rfl
    (fun ⟨a, ha⟩ => absurd (hfresh a) ha)
  refine ⟨t, h1, h2, ?_, ?_⟩
  · simpa [truncations] using h3
  · intro hcount
    have hle := locksSucceeded_le l ops w
    have : truncations l.lockFilename t = locksSucceeded l ops w := by
      simpa [truncations] using h3
    omega

theorem ledger_truncated_before_appends_witness :
    (∀ a, (exampleWorld.heap a).FinalizeFunc = none) ∧
      ∃ t, (run exampleLocker [Op.lock, Op.finalize 0 "/w/a.go", Op.finalize 1 "/w/b.go"]
            exampleWorld).os.trace = exampleWorld.os.trace ++ t ∧
        truncatedBeforeAppend exampleLocker.lockFilename t = true ∧
        truncations exampleLocker.lockFilename t =
          locksSucceeded exampleLocker
            [Op.lock, Op.finalize 0 "/w/a.go", Op.finalize 1 "/w/b.go"] exampleWorld ∧
        ([Op.lock, Op.finalize 0 "/w/a.go", Op.finalize 1 "/w/b.go"].count Op.lock ≤ 1 →
          truncations exampleLocker.lockFilename t ≤ 1) :=
  ⟨fun _ => rfl, ledger_truncated_before_appends exampleLocker
    [Op.lock, Op.finalize 0 "/w/a.go", Op.finalize 1 "/w/b.go"] exampleWorld (fun _ => rfl)⟩

/-- C10 fails as stated: on one locker, `Lock`, the hook of a file, and `Lock`
again truncate the ledger twice; the second truncation discards the record
the hook appended. -/
theorem second_lock_truncates_again :
    truncations exampleLocker.lockFilename
        (run exampleLocker [Op.lock, Op.finalize 0 "/w/a.go", Op.lock] exampleWorld).os.trace = 2 ∧
      (run exampleLocker [Op.lock, Op.finalize 0 "/w/a.go"] exampleWorld).os.content
          exampleLocker.lockFilename =
        some "a.go::ba7816bf8f01cfea414140de5dae2223b00361a396177a9cb410ff61f20015ad\n" ∧
      (run exampleLocker [Op.lock, Op.finalize 0 "/w/a.go", Op.lock] exampleWorld).os.content
          exampleLocker.lockFilename = some "" := by
  refine ⟨by decide, by decide, by decide⟩


/-! ## Path cleaning -/

theorem splitOnChar_not_mem (sep : Char) (p : List Char) :
    ∀ s ∈ splitOnChar sep p, sep ∉ s := by
  induction p with
  | nil => simp [splitOnChar]
  | cons c cs ih =>
    intro s hs
    by_cases hc : c = sep
    · simp only [splitOnChar, hc, if_true, List.mem_cons] at hs
      rcases hs with rfl | hs
      · simp
      · exact ih s hs
    · have hne := splitOnChar_ne_nil sep cs
      cases hsp : splitOnChar sep cs with
      | nil => exact absurd hsp hne
      | cons x xs =>
        rw [hsp] at ih
        simp only [splitOnChar, hc, if_false, hsp, List.headD_cons, List.tail_cons,
          List.mem_cons] at hs
        rcases hs with rfl | hs
        · have hx := ih x (List.mem_cons_self _ _)
          simp only [List.mem_cons, not_or]
          exact ⟨fun h => hc h.symm, hx⟩
        · exact ih s (List.mem_cons_of_mem _ hs)

theorem splitSlash_append_slash (a b : List Char) :
    splitSlash (a ++ '/' :: b) = splitSlash a ++ splitSlash b :=
  splitOnChar_append_sep '/' a b

theorem joinSlash_cons (s : List Char) (rest : List (List Char)) (h : rest ≠ []) :
    joinSlash (s :: rest) = s ++ '/' :: joinSlash rest := by
  cases rest with
  | nil => exact absurd rfl h
  | cons t ts => rfl

theorem joinSlash_append (xs ys : List (List Char)) (hx : xs ≠ []) (hy : ys ≠ []) :
    joinSlash (xs ++ ys) = joinSlash xs ++ '/' :: joinSlash ys := by
  induction xs with
  | nil => exact absurd rfl hx
  | cons x rest ih =>
    cases rest with
    | nil =>
      simp only [List.singleton_append, joinSlash]
      exact joinSlash_cons x ys hy
    | cons t ts =>
      have := ih (by simp)
      rw [List.cons_append, joinSlash_cons x _ (by simp), this, joinSlash_cons x _ (by simp)]
      simp

/-- Splitting undoes joining, for a non-empty list of elements without
separator. -/
theorem splitSlash_joinSlash (xs : List (List Char)) (hne : xs ≠ [])
    (h : ∀ s ∈ xs, '/' ∉ s) : splitSlash (joinSlash xs) = xs := by
  induction xs with
  | nil => exact absurd rfl hne
  | cons x rest ih =>
    have hx := h x (List.mem_cons_self _ _)
    cases rest with
    | nil => simpa [joinSlash, splitSlash] using splitOnChar_of_not_mem '/' x hx
    | cons t ts =>
      rw [joinSlash_cons x _ (by simp), splitSlash_append_slash,
        ih (by simp) (fun s hs => h s (List.mem_cons_of_mem _ hs))]
      simp [splitSlash, splitOnChar_of_not_mem '/' x hx]


theorem cleanStep_name (rooted : Bool) (out : List (List Char)) (seg : List Char)
    (h1 : seg ≠ []) (h2 : seg ≠ ['.']) (h3 : seg ≠ dotdot) :
    cleanStep rooted out seg = seg :: out := by
  simp [cleanStep, h1, h2, h3]

theorem mem_tail_of {α : Type} (x : α) (l : List α) (h : x ∈ l.tail) : x ∈ l := by
  cases l with
  | nil => simp at h
  | cons a as => exact List.mem_cons_of_mem _ h

/-- The loop of `Clean` writes only elements that are neither empty nor `.`. -/
theorem cleanStep_nonDot (rooted : Bool) (out : List (List Char)) (seg : List Char)
    (h : ∀ s ∈ out, s ≠ [] ∧ s ≠ ['.']) :
    ∀ s ∈ cleanStep rooted out seg, s ≠ [] ∧ s ≠ ['.'] := by
  intro s hs
  unfold cleanStep at hs
  split at hs
  · exact h s hs
  · split at hs
    · exact h s hs
    · split at hs
      · split at hs
        · exact h s (mem_tail_of s out hs)
        · split at hs
          · exact h s hs
          · rcases List.mem_cons.mp hs with rfl | hmem
            · exact ⟨by decide, by decide⟩
            · exact h s hmem
      · rename_i h1 h2 h3
        rcases List.mem_cons.mp hs with rfl | hmem
        · exact ⟨h1, h2⟩
        · exact h s hmem

theorem cleanStep_noSlash (rooted : Bool) (out : List (List Char)) (seg : List Char)
    (h : ∀ s ∈ out, '/' ∉ s) (hseg : '/' ∉ seg) :
    ∀ s ∈ cleanStep rooted out seg, '/' ∉ s := by
  intro s hs
  unfold cleanStep at hs
  split at hs
  · exact h s hs
  · split at hs
    · exact h s hs
    · split at hs
      · split at hs
        · exact h s (mem_tail_of s out hs)
        · split at hs
          · exact h s hs
          · rcases List.mem_cons.mp hs with rfl | hmem
            · decide
            · exact h s hmem
      · rcases List.mem_cons.mp hs with rfl | hmem
        · exact hseg
        · exact h s hmem

theorem cleanStep_rooted_noDotdot (out : List (List Char)) (seg : List Char)
    (h : ∀ s ∈ out, s ≠ dotdot) : ∀ s ∈ cleanStep true out seg, s ≠ dotdot := by
  intro s hs
  unfold cleanStep at hs
  split at hs
  · exact h s hs
  · split at hs
    · exact h s hs
    · split at hs
      · split at hs
        · exact h s (mem_tail_of s out hs)
        · simp only [if_true] at hs
          exact h s hs
      · rename_i h1 h2 h3
        rcases List.mem_cons.mp hs with rfl | hmem
        · exact h3
        · exact h s hmem

/-- What the loop of `Clean` has written after any sequence of elements
without separator: elements that are not empty, not `.` and without
separator; after a rooted start, none is `..`. -/
theorem foldl_cleanStep_valid (rooted : Bool) (segs : List (List Char)) (out : List (List Char))
    (hout : ∀ s ∈ out, (s ≠ [] ∧ s ≠ ['.']) ∧ '/' ∉ s ∧ (rooted = true → s ≠ dotdot))
    (hsegs : ∀ s ∈ segs, '/' ∉ s) :
    ∀ s ∈ segs.foldl (cleanStep rooted) out,
      (s ≠ [] ∧ s ≠ ['.']) ∧ '/' ∉ s ∧ (rooted = true → s ≠ dotdot) := by
  induction segs generalizing out with
  | nil => simpa using hout
  | cons x xs ih =>
    simp only [List.foldl_cons]
    apply ih
    · intro s hs
      refine ⟨cleanStep_nonDot rooted out x (fun t ht => (hout t ht).1) s hs,
        cleanStep_noSlash rooted out x (fun t ht => (hout t ht).2.1)
          (hsegs x (List.mem_cons_self _ _)) s hs, ?_⟩
      intro hr
      subst hr
      exact cleanStep_rooted_noDotdot out x (fun t ht => (hout t ht).2.2 rfl) s hs
    · exact fun s hs => hsegs s (List.mem_cons_of_mem _ hs)

theorem foldl_cleanStep_names (rooted : Bool) (names out : List (List Char))
    (h : ∀ s ∈ names, s ≠ [] ∧ s ≠ ['.'] ∧ s ≠ dotdot) :
    names.foldl (cleanStep rooted) out = names.reverse ++ out := by
  induction names generalizing out with
  | nil => simp
  | cons x xs ih =>
    obtain ⟨h1, h2, h3⟩ := h x (List.mem_cons_self _ _)
    simp only [List.foldl_cons, cleanStep_name rooted out x h1 h2 h3]
    rw [ih _ (fun s hs => h s (List.mem_cons_of_mem _ hs))]
    simp

theorem foldl_cleanStep_snoc (rooted : Bool) (xs : List (List Char)) (x : List Char)
    (out : List (List Char)) :
    (xs ++ [x]).foldl (cleanStep rooted) out = cleanStep rooted (xs.foldl (cleanStep rooted) out) x := by
  rw [List.foldl_append, List.foldl_cons, List.foldl_nil]

theorem cleanStep_skip (rooted : Bool) (out : List (List Char)) (seg : List Char)
    (h : seg = [] ∨ seg = ['.']) : cleanStep rooted out seg = out := by
  unfold cleanStep
  rcases h with h | h <;> simp [h]

theorem cleanStep_dotdot_back (rooted : Bool) (out : List (List Char))
    (h : canBacktrack out = true) : cleanStep rooted out dotdot = out.tail := by
  have h1 : dotdot ≠ [] := by decide
  have h2 : dotdot ≠ ['.'] := by decide
  unfold cleanStep
  simp only [h1, h2, if_false, h, if_true]

theorem cleanStep_dotdot_rooted (out : List (List Char))
    (h : canBacktrack out = false) : cleanStep true out dotdot = out := by
  have h1 : dotdot ≠ [] := by decide
  have h2 : dotdot ≠ ['.'] := by decide
  unfold cleanStep
  simp [h1, h2, h]

theorem cleanStep_dotdot_relative (out : List (List Char))
    (h : canBacktrack out = false) : cleanStep false out dotdot = dotdot :: out := by
  have h1 : dotdot ≠ [] := by decide
  have h2 : dotdot ≠ ['.'] := by decide
  unfold cleanStep
  simp [h1, h2, h]

/-- Running the rooted loop over the elements of a relative path gives the
same as running it over the cleaned relative path. -/
theorem foldl_cleanStep_relative (segs : List (List Char)) (base : List (List Char)) :
    segs.foldl (cleanStep true) base =
      (segs.foldl (cleanStep false) []).reverse.foldl (cleanStep true) base := by
  induction segs using List.reverseRecOn with
  | nil => simp
  | append_singleton xs x ih =>
    rw [foldl_cleanStep_snoc, foldl_cleanStep_snoc]
    have hvalid : ∀ s ∈ xs.foldl (cleanStep false) [], s ≠ [] ∧ s ≠ ['.'] := by
      have : ∀ (ys : List (List Char)) (out : List (List Char)),
          (∀ s ∈ out, s ≠ [] ∧ s ≠ ['.']) →
          ∀ s ∈ ys.foldl (cleanStep false) out, s ≠ [] ∧ s ≠ ['.'] := by
        intro ys
        induction ys with
        | nil => intro out h; simpa using h
        | cons y ys ihy =>
          intro out h
          simp only [List.foldl_cons]
          exact ihy _ (cleanStep_nonDot false out y h)
      exact this xs [] (by simp)
    generalize xs.foldl (cleanStep false) [] = rel at ih hvalid
    rw [ih]
    by_cases h1 : x = []
    · rw [cleanStep_skip _ _ x (Or.inl h1), cleanStep_skip _ _ x (Or.inl h1)]
    by_cases h2 : x = ['.']
    · rw [cleanStep_skip _ _ x (Or.inr h2), cleanStep_skip _ _ x (Or.inr h2)]
    by_cases h3 : x = dotdot
    · subst h3
      by_cases hb : canBacktrack rel = true
      · cases rel with
        | nil => simp [canBacktrack] at hb
        | cons top rest =>
          have ht : top ≠ dotdot := by simpa [canBacktrack] using hb
          obtain ⟨t1, t2⟩ := hvalid top (List.mem_cons_self _ _)
          rw [cleanStep_dotdot_back false _ hb, List.tail_cons, List.reverse_cons,
            foldl_cleanStep_snoc, cleanStep_name true _ top t1 t2 ht,
            cleanStep_dotdot_back true _ (by simpa [canBacktrack] using ht), List.tail_cons]
      · have hb2 : canBacktrack rel = false := by simpa using hb
        rw [cleanStep_dotdot_relative _ hb2, List.reverse_cons, foldl_cleanStep_snoc]
    · rw [cleanStep_name true _ x h1 h2 h3, cleanStep_name false _ x h1 h2 h3,
        List.reverse_cons, foldl_cleanStep_snoc, cleanStep_name true _ x h1 h2 h3]


theorem joinSlash_ne_nil (xs : List (List Char)) (hne : xs ≠ []) (h : ∀ s ∈ xs, s ≠ []) :
    joinSlash xs ≠ [] := by
  cases xs with
  | nil => exact absurd rfl hne
  | cons x rest =>
    have hx := h x (List.mem_cons_self _ _)
    cases rest with
    | nil => simpa [joinSlash] using hx
    | cons t ts => simp [joinSlash]

theorem joinSlash_injective (xs ys : List (List Char))
    (hx : ∀ s ∈ xs, s ≠ [] ∧ '/' ∉ s) (hy : ∀ s ∈ ys, s ≠ [] ∧ '/' ∉ s)
    (h : joinSlash xs = joinSlash ys) : xs = ys := by
  by_cases hxe : xs = []
  · by_cases hye : ys = []
    · rw [hxe, hye]
    · subst hxe
      exact absurd h.symm (joinSlash_ne_nil ys hye (fun s hs => (hy s hs).1))
  · by_cases hye : ys = []
    · subst hye
      exact absurd h (joinSlash_ne_nil xs hxe (fun s hs => (hx s hs).1))
    · rw [← splitSlash_joinSlash xs hxe (fun s hs => (hx s hs).2),
        ← splitSlash_joinSlash ys hye (fun s hs => (hy s hs).2), h]

theorem joinSlash_head (xs : List (List Char)) (hne : xs ≠ [])
    (h : ∀ s ∈ xs, s ≠ [] ∧ '/' ∉ s) : (joinSlash xs).head? ≠ some '/' := by
  cases xs with
  | nil => exact absurd rfl hne
  | cons x rest =>
    obtain ⟨hx1, hx2⟩ := h x (List.mem_cons_self _ _)
    cases x with
    | nil => exact absurd rfl hx1
    | cons c cs =>
      have hc : c ≠ '/' := fun hc => hx2 (by simp [hc])
      cases rest with
      | nil => simpa [joinSlash] using hc
      | cons t ts => simpa [joinSlash] using hc

theorem cleanOutput_relative_head (out : List (List Char))
    (h : ∀ s ∈ out, s ≠ [] ∧ '/' ∉ s) : (cleanOutput false out).head? ≠ some '/' := by
  unfold cleanOutput
  by_cases he : out = []
  · simp [he]
  · simp only [Bool.false_eq_true, if_false, he]
    exact joinSlash_head out.reverse (by simpa using he) (by simpa using h)

/-- The cleaned path determines the elements the loop wrote. -/
theorem cleanOutput_injective (rooted : Bool) (xs ys : List (List Char))
    (hx : ∀ s ∈ xs, (s ≠ [] ∧ s ≠ ['.']) ∧ '/' ∉ s)
    (hy : ∀ s ∈ ys, (s ≠ [] ∧ s ≠ ['.']) ∧ '/' ∉ s)
    (h : cleanOutput rooted xs = cleanOutput rooted ys) : xs = ys := by
  have key : ∀ as bs : List (List Char), (∀ s ∈ as, (s ≠ [] ∧ s ≠ ['.']) ∧ '/' ∉ s) →
      (∀ s ∈ bs, (s ≠ [] ∧ s ≠ ['.']) ∧ '/' ∉ s) →
      joinSlash as.reverse = joinSlash bs.reverse → as = bs := by
    intro as bs ha hb hj
    have := joinSlash_injective as.reverse bs.reverse
      (fun s hs => ⟨(ha s (List.mem_reverse.mp hs)).1.1, (ha s (List.mem_reverse.mp hs)).2⟩)
      (fun s hs => ⟨(hb s (List.mem_reverse.mp hs)).1.1, (hb s (List.mem_reverse.mp hs)).2⟩) hj
    exact List.reverse_injective this
  have dot : ∀ as : List (List Char), as ≠ [] →
      (∀ s ∈ as, (s ≠ [] ∧ s ≠ ['.']) ∧ '/' ∉ s) → joinSlash as.reverse ≠ ['.'] := by
    intro as hne ha hj
    have hsplit := splitSlash_joinSlash as.reverse (by simpa using hne)
      (fun s hs => (ha s (List.mem_reverse.mp hs)).2)
    rw [hj] at hsplit
    have hmem : ['.'] ∈ as.reverse := by
      rw [← hsplit]
      simp [splitSlash, splitOnChar]
    exact (ha _ (List.mem_reverse.mp hmem)).1.2 rfl
  unfold cleanOutput at h
  cases rooted with
  | true =>
    simp only [if_true, List.cons.injEq, true_and] at h
    exact key xs ys hx hy h
  | false =>
    simp only [Bool.false_eq_true, if_false] at h
    by_cases hxe : xs = []
    · by_cases hye : ys = []
      · rw [hxe, hye]
      · simp only [hxe, hye, if_true, if_false] at h
        exact absurd h.symm (dot ys hye hy)
    · by_cases hye : ys = []
      · simp only [hxe, hye, if_true, if_false] at h
        exact absurd h (dot xs hxe hx)
      · simp only [hxe, hye, if_false] at h
        exact key xs ys hx hy h

theorem norm_valid (rooted : Bool) (p : List Char) :
    ∀ s ∈ (splitSlash p).foldl (cleanStep rooted) [],
      (s ≠ [] ∧ s ≠ ['.']) ∧ '/' ∉ s ∧ (rooted = true → s ≠ dotdot) :=
  foldl_cleanStep_valid rooted (splitSlash p) [] (by simp) (splitOnChar_not_mem '/' p)

/-- Two paths with the same cleaned form are both rooted or both relative, and
the loop of `Clean` writes the same elements for both. -/
theorem cleanChars_eq (a b : List Char) (h : cleanChars a = cleanChars b) :
    (decide (a.head? = some '/')) = (decide (b.head? = some '/')) ∧
      (splitSlash a).foldl (cleanStep (decide (a.head? = some '/'))) [] =
        (splitSlash b).foldl (cleanStep (decide (b.head? = some '/'))) [] := by
  unfold cleanChars at h
  simp only at h
  generalize hra : decide (a.head? = some '/') = ra at h ⊢
  generalize hrb : decide (b.head? = some '/') = rb at h ⊢
  have va := norm_valid ra a
  have vb := norm_valid rb b
  have hrel : ∀ (xs ys : List (List Char)),
      (∀ s ∈ ys, s ≠ [] ∧ '/' ∉ s) → cleanOutput true xs ≠ cleanOutput false ys := by
    intro xs ys hy heq
    have := cleanOutput_relative_head ys hy
    rw [← heq] at this
    simp [cleanOutput] at this
  cases ra with
  | true =>
    cases rb with
    | true =>
      exact ⟨rfl, cleanOutput_injective true _ _ (fun s hs => ⟨(va s hs).1, (va s hs).2.1⟩)
        (fun s hs => ⟨(vb s hs).1, (vb s hs).2.1⟩) h⟩
    | false =>
      exact absurd h (hrel _ _ (fun s hs => ⟨(vb s hs).1.1, (vb s hs).2.1⟩))
  | false =>
    cases rb with
    | true =>
      exact absurd h.symm (hrel _ _ (fun s hs => ⟨(va s hs).1.1, (va s hs).2.1⟩))
    | false =>
      exact ⟨rfl, cleanOutput_injective false _ _ (fun s hs => ⟨(va s hs).1, (va s hs).2.1⟩)
        (fun s hs => ⟨(vb s hs).1, (vb s hs).2.1⟩) h⟩


theorem cleanChars_append_slash (a b : List Char) (ha : a ≠ []) :
    cleanChars (a ++ '/' :: b) =
      cleanOutput (decide (a.head? = some '/'))
        ((splitSlash b).foldl (cleanStep (decide (a.head? = some '/')))
          ((splitSlash a).foldl (cleanStep (decide (a.head? = some '/'))) [])) := by
  have hhead : (a ++ '/' :: b).head? = a.head? := by
    cases a with
    | nil => exact absurd rfl ha
    | cons c cs => rfl
  unfold cleanChars
  simp only [hhead, splitSlash_append_slash, List.foldl_append]

theorem String.data_ne_nil (s : String) (h : s ≠ "") : s.data ≠ [] := by
  intro hd
  apply h
  cases s with
  | mk data =>
    simp only at hd
    subst hd
    rfl

theorem Clean_append_slash (x y : String) (hx : x ≠ "") :
    Clean (x ++ "/" ++ y) =
      ⟨cleanOutput (IsAbs x)
        ((splitSlash y.data).foldl (cleanStep (IsAbs x))
          ((splitSlash x.data).foldl (cleanStep (IsAbs x)) []))⟩ := by
  unfold Clean IsAbs
  have hd : (x ++ "/" ++ y).data = x.data ++ '/' :: y.data := by
    simp [String.data_append]
  rw [hd, cleanChars_append_slash _ _ (String.data_ne_nil x hx)]

theorem IsAbs_append (x y : String) (hx : x ≠ "") : IsAbs (x ++ y) = IsAbs x := by
  unfold IsAbs
  have hne := String.data_ne_nil x hx
  cases hxd : x.data with
  | nil => exact absurd hxd hne
  | cons c cs => simp [String.data_append, hxd]

theorem IsAbs_ne_empty (x : String) (h : IsAbs x = true) : x ≠ "" := by
  intro hx
  subst hx
  simp [IsAbs] at h

theorem splitSlash_lockFilename :
    splitSlash lockFilename.data = ["gen".data, "goa.lock".data] := by
  decide

/-- The elements of the directory the ledger goes below, last one first: those
of an absolute output directory, or those of the working directory followed
by the cleaned relative output directory. -/
theorem NewLocker_eq (flag : Option String) (wd : String) (files : List Nat)
    (hwd : IsAbs wd = true) :
    NewLocker flag (.ok wd) files = .ok ⟨files,
      ⟨cleanOutput true (["gen".data, "goa.lock".data].foldl (cleanStep true)
        (if IsAbs (flag.getD "") = true then
          (splitSlash (flag.getD "").data).foldl (cleanStep true) []
        else
          ((splitSlash (flag.getD "").data).foldl (cleanStep false) []).reverse.foldl
            (cleanStep true) ((splitSlash wd.data).foldl (cleanStep true) [])))⟩⟩ := by
  have hwdne := IsAbs_ne_empty wd hwd
  have hdefault : Abs (.ok wd) (wd ++ "/" ++ lockFilename) =
      .ok ⟨cleanOutput true (["gen".data, "goa.lock".data].foldl (cleanStep true)
        ((splitSlash wd.data).foldl (cleanStep true) []))⟩ := by
    unfold Abs
    rw [String.append_assoc, IsAbs_append wd _ hwdne, ← String.append_assoc]
    simp only [hwd, if_true]
    rw [Clean_append_slash wd _ hwdne, hwd, splitSlash_lockFilename]
  have hempty : IsAbs "" = false := by decide
  have hnorm : (splitSlash "".data).foldl (cleanStep false) [] = [] := by decide
  unfold NewLocker
  cases flag with
  | none =>
    simp only [hdefault, Option.getD_none, hempty, hnorm]
    simp
  | some v =>
    by_cases hv : v = ""
    · subst hv
      simp only [hdefault, Option.getD_some, hempty, hnorm, ne_eq, not_true_eq_false, if_false]
      simp
    · simp only [ne_eq, hv, not_false_eq_true, if_true, Option.getD_some]
      by_cases habs : IsAbs v = true
      · have : Abs (.ok wd) (v ++ "/" ++ lockFilename) =
            .ok ⟨cleanOutput true (["gen".data, "goa.lock".data].foldl (cleanStep true)
              ((splitSlash v.data).foldl (cleanStep true) []))⟩ := by
          unfold Abs
          rw [String.append_assoc, IsAbs_append v _ hv, ← String.append_assoc]
          simp only [habs, if_true]
          rw [Clean_append_slash v _ hv, habs, splitSlash_lockFilename]
        simp only [this, habs, if_true]
      · have hrel : IsAbs v = false := by simpa using habs
        have : Abs (.ok wd) (v ++ "/" ++ lockFilename) =
            .ok ⟨cleanOutput true (["gen".data, "goa.lock".data].foldl (cleanStep true)
              (((splitSlash v.data).foldl (cleanStep false) []).reverse.foldl
                (cleanStep true) ((splitSlash wd.data).foldl (cleanStep true) [])))⟩ := by
          unfold Abs
          rw [String.append_assoc, IsAbs_append v _ hv, ← String.append_assoc]
          simp only [hrel, Bool.false_eq_true, if_false]
          unfold Join
          simp only [ne_eq, hwdne, not_false_eq_true, if_true]
          rw [Clean_append_slash wd _ hwdne, hwd]
          have hd : (v ++ "/" ++ lockFilename).data = v.data ++ '/' :: lockFilename.data := by
            simp [String.data_append]
          rw [hd, splitSlash_append_slash, List.foldl_append, splitSlash_lockFilename,
            foldl_cleanStep_relative (splitSlash v.data)]
        simp only [this, hrel, Bool.false_eq_true, if_false]


/-- C7. For every working directory, the output directory `///foo/bar/..//`
gives the ledger path `/foo/gen/goa.lock`, the same as `/foo`.  In general,
with an absolute working directory, two output-directory values (absent
counts as empty) with the same cleaned form, that is, which differ only by
redundant separators, `.` elements and resolved `..` elements, give the same
locker and so the same ledger path. -/
theorem ledger_path_is_normalized (wd : String) (files : List Nat) :
    NewLocker (some "///foo/bar/..//") (.ok wd) files = .ok ⟨files, "/foo/gen/goa.lock"⟩ ∧
      NewLocker (some "/foo") (.ok wd) files = .ok ⟨files, "/foo/gen/goa.lock"⟩ ∧
      (IsAbs wd = true → ∀ a b : Option String, Clean (a.getD "") = Clean (b.getD "") →
        NewLocker a (.ok wd) files = NewLocker b (.ok wd) files) := by
  refine ⟨by rfl, by rfl, ?_⟩
  intro hwd a b hab
  rw [NewLocker_eq a wd files hwd, NewLocker_eq b wd files hwd]
  have hdata : cleanChars (a.getD "").data = cleanChars (b.getD "").data := by
    have := congrArg String.data hab
    simpa [Clean] using this
  obtain ⟨hr, hn⟩ := cleanChars_eq _ _ hdata
  have hrab : IsAbs (a.getD "") = IsAbs (b.getD "") := hr
  by_cases habs : IsAbs (a.getD "") = true
  · have habs2 : IsAbs (b.getD "") = true := by rw [← hrab]; exact habs
    have ha : decide ((a.getD "").data.head? = some '/') = true := habs
    have hb : decide ((b.getD "").data.head? = some '/') = true := habs2
    rw [ha, hb] at hn
    simp only [habs, habs2, if_true, hn]
  · have hrel : IsAbs (a.getD "") = false := by simpa using habs
    have hrel2 : IsAbs (b.getD "") = false := by rw [← hrab]; exact hrel
    have ha : decide ((a.getD "").data.head? = some '/') = false := hrel
    have hb : decide ((b.getD "").data.head? = some '/') = false := hrel2
    rw [ha, hb] at hn
    simp only [hrel, hrel2, Bool.false_eq_true, if_false, hn]

theorem ledger_path_is_normalized_witness :
    IsAbs "/w" = true ∧ Clean ((some "tmp//x/..").getD "") = Clean ((some "./tmp/").getD "") ∧
      NewLocker (some "tmp//x/..") (.ok "/w") [0, 1] = NewLocker (some "./tmp/") (.ok "/w") [0, 1] :=
  ⟨by decide, by decide,
    (ledger_path_is_normalized "/w" [0, 1]).2.2 (by decide) (some "tmp//x/..") (some "./tmp/")
      (by decide)⟩


/-- A rooted cleaned path is a fixed point of `Clean`. -/
theorem cleanChars_cleanOutput_rooted (out : List (List Char))
    (h : ∀ s ∈ out, (s ≠ [] ∧ s ≠ ['.']) ∧ '/' ∉ s ∧ s ≠ dotdot) :
    cleanChars (cleanOutput true out) = cleanOutput true out := by
  have hout : cleanOutput true out = '/' :: joinSlash out.reverse := by simp [cleanOutput]
  rw [hout]
  unfold cleanChars
  have hsplit : splitSlash ('/' :: joinSlash out.reverse) =
      [] :: splitSlash (joinSlash out.reverse) := by
    simp [splitSlash, splitOnChar]
  simp only [List.head?_cons, decide_True, hsplit, List.foldl_cons]
  rw [cleanStep_skip true [] [] (Or.inl rfl)]
  by_cases he : out = []
  · subst he
    simp [joinSlash, splitSlash, splitOnChar, cleanStep, cleanOutput]
  · rw [splitSlash_joinSlash out.reverse (by simpa using he)
        (fun s hs => (h s (List.mem_reverse.mp hs)).2.1),
      foldl_cleanStep_names true out.reverse []
        (fun s hs => ⟨(h s (List.mem_reverse.mp hs)).1.1, (h s (List.mem_reverse.mp hs)).1.2,
          (h s (List.mem_reverse.mp hs)).2.2⟩)]
    simp [cleanOutput]

/-- Elements written after those of a rooted directory: the cleaned directory,
a separator, and the new elements; after the root itself no separator is
added. -/
theorem cleanOutput_append (more out : List (List Char)) (hmore : more ≠ [])
    (h : ∀ s ∈ out, s ≠ []) :
    (⟨cleanOutput true (more ++ out)⟩ : String) =
      (if (⟨cleanOutput true out⟩ : String) = "/" then "" else ⟨cleanOutput true out⟩) ++
        ⟨'/' :: joinSlash more.reverse⟩ := by
  by_cases he : out = []
  · subst he
    have : (⟨cleanOutput true []⟩ : String) = "/" := by decide
    simp only [this, if_true, List.append_nil]
    apply String.ext
    simp [cleanOutput, String.data_append]
  · have hj := joinSlash_ne_nil out.reverse (by simpa using he)
      (fun s hs => h s (List.mem_reverse.mp hs))
    have hne : (⟨cleanOutput true out⟩ : String) ≠ "/" := by
      intro heq
      have := congrArg String.data heq
      simp only [cleanOutput, if_true] at this
      have h2 : joinSlash out.reverse = [] := by simpa using this
      exact hj h2
    simp only [hne, if_false]
    apply String.ext
    simp only [cleanOutput, if_true, String.data_append, List.reverse_append]
    rw [joinSlash_append out.reverse more.reverse (by simpa using he) (by simpa using hmore)]
    simp


theorem Clean_rooted (wd : String) (hwd : IsAbs wd = true) :
    Clean wd = ⟨cleanOutput true ((splitSlash wd.data).foldl (cleanStep true) [])⟩ := by
  unfold Clean cleanChars
  have : decide (wd.data.head? = some '/') = true := hwd
  simp only [this]

theorem NewLocker_resolved (flag : Option String) (wd : String) (files : List Nat)
    (hwd : IsAbs wd = true) :
    NewLocker flag (.ok wd) files =
      .ok ⟨files, Clean (resolvedOutputDir flag wd ++ "/" ++ lockFilename)⟩ := by
  have hwdne := IsAbs_ne_empty wd hwd
  have hdefault : Abs (.ok wd) (wd ++ "/" ++ lockFilename) =
      .ok (Clean (wd ++ "/" ++ lockFilename)) := by
    unfold Abs
    rw [String.append_assoc, IsAbs_append wd _ hwdne, ← String.append_assoc]
    simp only [hwd, if_true]
  unfold NewLocker resolvedOutputDir
  cases flag with
  | none => simp only [hdefault]
  | some v =>
    by_cases hv : v = ""
    · simp only [hv, ne_eq, not_true_eq_false, if_false, if_true, hdefault]
    · simp only [hv, ne_eq, not_false_eq_true, if_true, if_false]
      by_cases habs : IsAbs v = true
      · have : Abs (.ok wd) (v ++ "/" ++ lockFilename) = .ok (Clean (v ++ "/" ++ lockFilename)) := by
          unfold Abs
          rw [String.append_assoc, IsAbs_append v _ hv, ← String.append_assoc]
          simp only [habs, if_true]
        simp only [this, habs, if_true]
      · have hrel : IsAbs v = false := by simpa using habs
        have : Abs (.ok wd) (v ++ "/" ++ lockFilename) =
            .ok (Clean (wd ++ "/" ++ v ++ "/" ++ lockFilename)) := by
          unfold Abs
          rw [String.append_assoc, IsAbs_append v _ hv, ← String.append_assoc]
          simp only [hrel, Bool.false_eq_true, if_false]
          unfold Join
          simp only [ne_eq, hwdne, not_false_eq_true, if_true, String.append_assoc]
        simp only [this, hrel, Bool.false_eq_true, if_false]

/-- C8 (as amended).  With an absolute working directory `wd`, construction
succeeds for every file collection and output-directory value, and the
ledger path is the cleaned form of `<outputDir>/gen/goa.lock`, the output
directory being `wd` when the value is absent or empty and being resolved
against `wd` when relative; the path is absolute and clean.  An absent or
empty value gives the cleaned `wd` followed by `/gen/goa.lock`, and `tmp`
gives it followed by `/tmp/gen/goa.lock`, where the cleaned root `/`
contributes nothing; so for a clean `wd` other than `/` the results are
`wd + "/gen/goa.lock"` and `wd + "/tmp/gen/goa.lock"`. -/
theorem ledger_path_resolution (flag : Option String) (wd : String) (files : List Nat)
    (hwd : IsAbs wd = true) :
    ∃ l : Locker, NewLocker flag (.ok wd) files = .ok l ∧ l.files = files ∧
      l.lockFilename = Clean (resolvedOutputDir flag wd ++ "/" ++ lockFilename) ∧
      IsAbs l.lockFilename = true ∧ Clean l.lockFilename = l.lockFilename ∧
      ((flag = none ∨ flag = some "") →
        l.lockFilename = (if Clean wd = "/" then "" else Clean wd) ++ "/gen/goa.lock") ∧
      (flag = some "tmp" →
        l.lockFilename = (if Clean wd = "/" then "" else Clean wd) ++ "/tmp/gen/goa.lock") ∧
      (Clean wd = wd → wd ≠ "/" →
        ((flag = none ∨ flag = some "") → l.lockFilename = wd ++ "/gen/goa.lock") ∧
        (flag = some "tmp" → l.lockFilename = wd ++ "/tmp/gen/goa.lock")) := by
  have hnl := NewLocker_eq flag wd files hwd
  have hres := NewLocker_resolved flag wd files hwd
  have vwd := norm_valid true wd.data
  have hnames : ∀ s ∈ ["gen".data, "goa.lock".data], '/' ∉ s := by decide
  generalize hbase : (if IsAbs (flag.getD "") = true then
      (splitSlash (flag.getD "").data).foldl (cleanStep true) []
    else
      ((splitSlash (flag.getD "").data).foldl (cleanStep false) []).reverse.foldl
        (cleanStep true) ((splitSlash wd.data).foldl (cleanStep true) [])) = base at hnl
  have vbase : ∀ s ∈ base, (s ≠ [] ∧ s ≠ ['.']) ∧ '/' ∉ s ∧ (true = true → s ≠ dotdot) := by
    rw [← hbase]
    split
    · exact norm_valid true _
    · exact foldl_cleanStep_valid true _ _ vwd
        (fun s hs => (norm_valid false _ s (List.mem_reverse.mp hs)).2.1)
  have vout := foldl_cleanStep_valid true ["gen".data, "goa.lock".data] base vbase hnames
  have hpath : Clean (resolvedOutputDir flag wd ++ "/" ++ lockFilename) =
      ⟨cleanOutput true (["gen".data, "goa.lock".data].foldl (cleanStep true) base)⟩ := by
    have := hres.symm.trans hnl
    simpa using this
  have hdefault : (flag = none ∨ flag = some "") →
      Clean (resolvedOutputDir flag wd ++ "/" ++ lockFilename) =
        (if Clean wd = "/" then "" else Clean wd) ++ "/gen/goa.lock" := by
    intro hflag
    have hb : base = (splitSlash wd.data).foldl (cleanStep true) [] := by
      rw [← hbase]
      rcases hflag with h | h <;> subst h <;> rfl
    rw [hpath, Clean_rooted wd hwd, ← hb]
    have hfold : ["gen".data, "goa.lock".data].foldl (cleanStep true) base =
        ["goa.lock".data, "gen".data] ++ base :=
      foldl_cleanStep_names true _ base (by decide)
    rw [hfold, cleanOutput_append _ base (by simp) (fun s hs => (vbase s hs).1.1)]
    rfl
  have htmp : flag = some "tmp" →
      Clean (resolvedOutputDir flag wd ++ "/" ++ lockFilename) =
        (if Clean wd = "/" then "" else Clean wd) ++ "/tmp/gen/goa.lock" := by
    intro hflag
    subst hflag
    have hb : base = ["tmp".data] ++ (splitSlash wd.data).foldl (cleanStep true) [] := by
      rw [← hbase]
      rfl
    rw [hpath, Clean_rooted wd hwd, hb]
    have hfold : ["gen".data, "goa.lock".data].foldl (cleanStep true)
        (["tmp".data] ++ (splitSlash wd.data).foldl (cleanStep true) []) =
        ["goa.lock".data, "gen".data, "tmp".data] ++
          (splitSlash wd.data).foldl (cleanStep true) [] := by
      rw [foldl_cleanStep_names true _ _ (by decide)]
      rfl
    rw [hfold, cleanOutput_append _ _ (by simp) (fun s hs => (vwd s hs).1.1)]
    rfl
  refine ⟨_, hres, rfl, rfl, ?_, ?_, hdefault, htmp, ?_⟩
  · rw [hpath]
    simp [IsAbs, cleanOutput]
  · simp only [hpath]
    unfold Clean
    simp only
    rw [cleanChars_cleanOutput_rooted _ (fun s hs => ⟨(vout s hs).1, (vout s hs).2.1,
      (vout s hs).2.2 rfl⟩)]
  · intro hclean hroot
    refine ⟨fun hflag => ?_, fun hflag => ?_⟩
    · have := hdefault hflag
      rw [hclean] at this
      simp only [hroot, if_false] at this
      exact this
    · have := htmp hflag
      rw [hclean] at this
      simp only [hroot, if_false] at this
      exact this

theorem ledger_path_resolution_witness :
    IsAbs "/w" = true ∧
      ∃ l : Locker, NewLocker (some "tmp") (.ok "/w") [0, 1] = .ok l ∧ l.files = [0, 1] ∧
        l.lockFilename = Clean (resolvedOutputDir (some "tmp") "/w" ++ "/" ++ lockFilename) ∧
        IsAbs l.lockFilename = true ∧ Clean l.lockFilename = l.lockFilename ∧
        (((some "tmp" : Option String) = none ∨ (some "tmp" : Option String) = some "") →
          l.lockFilename = (if Clean "/w" = "/" then "" else Clean "/w") ++ "/gen/goa.lock") ∧
        ((some "tmp" : Option String) = some "tmp" →
          l.lockFilename = (if Clean "/w" = "/" then "" else Clean "/w") ++ "/tmp/gen/goa.lock") ∧
        (Clean "/w" = "/w" → ("/w" : String) ≠ "/" →
          ((((some "tmp" : Option String) = none ∨ (some "tmp" : Option String) = some "") →
            l.lockFilename = "/w" ++ "/gen/goa.lock") ∧
          ((some "tmp" : Option String) = some "tmp" →
            l.lockFilename = "/w" ++ "/tmp/gen/goa.lock"))) :=
  ⟨by decide, ledger_path_resolution (some "tmp") "/w" [0, 1] (by decide)⟩

/-- C8 fails as stated: with the working directory `/` an absent output
directory gives the ledger path `/gen/goa.lock` and `tmp` gives
`/tmp/gen/goa.lock`, not `wd + "/gen/goa.lock"` (which is `//gen/goa.lock`)
and `wd + "/tmp/gen/goa.lock"`. -/
theorem root_working_directory_counterexample :
    NewLocker none (.ok "/") [] = .ok ⟨[], "/gen/goa.lock"⟩ ∧
      ("/gen/goa.lock" : String) ≠ "/" ++ "/gen/goa.lock" ∧
      NewLocker (some "tmp") (.ok "/") [] = .ok ⟨[], "/tmp/gen/goa.lock"⟩ ∧
      ("/tmp/gen/goa.lock" : String) ≠ "/" ++ "/tmp/gen/goa.lock" :=
  ⟨by rfl, by decide, by rfl, by decide⟩

/-! ## The model against known values -/

/-- The cleaning rules reproduce the cases of the Go documentation and of the
test `TestLocker_NewLocker`. -/
theorem Clean_examples :
    Clean "" = "." ∧ Clean "abc//def//ghi" = "abc/def/ghi" ∧ Clean "//abc//" = "/abc" ∧
      Clean "abc/./def" = "abc/def" ∧ Clean "abc/def/../ghi/../jkl" = "abc/jkl" ∧
      Clean "abc/def/../../.." = ".." ∧ Clean "/abc/def/../../.." = "/" ∧
      Clean "abc/def/../../../ghi/jkl/../../../mno" = "../../mno" ∧ Clean "/../abc" = "/abc" ∧
      Clean "abc/../../././../def" = "../../def" ∧ Dir "/w/gen/goa.lock" = "/w/gen" ∧
      Dir "/goa.lock" = "/" ∧ Dir "goa.lock" = "." := by
  decide

/-- The checksum function gives the published SHA-256 digests of the empty
message, of `abc`, and of a message that fills more than one block. -/
theorem sha256Hex_examples :
    sha256Hex "" = "e3b0c44298fc1c149afbf4c8996fb92427ae41e4649b934ca495991b7852b855" ∧
      sha256Hex "abc" = "ba7816bf8f01cfea414140de5dae2223b00361a396177a9cb410ff61f20015ad" ∧
      sha256Hex "abcdbcdecdefdefgefghfghighijhijkijkljklmklmnlmnomnopnopq" =
        "248d6a61d20638b8e5c026930c3e6039a33ce45964ff2167f6ecedd419db06c1" := by
  decide

/-! ## The bound on the recursion of `os.MkdirAll` -/

theorem String.length_eq_data (p : String) : p.length = p.data.length := rfl

theorem String.eq_empty_of_data (p : String) (h : p.data = []) : p = "" := by
  cases p with
  | mk data =>
    simp only at h
    subst h
    rfl

theorem length_dropWhile_le {α : Type} (f : α → Bool) (l : List α) :
    (l.dropWhile f).length ≤ l.length :=
  (List.dropWhile_sublist f).length_le

theorem trimParent_length (p : String) (h : p ≠ "") : (trimParent p).length < p.length := by
  have hne : p.data.reverse ≠ [] := by
    intro hr
    exact h (String.eq_empty_of_data p (List.reverse_eq_nil_iff.mp hr))
  rw [String.length_eq_data, String.length_eq_data]
  unfold trimParent
  simp only [List.length_reverse, List.length_drop]
  cases hrev : p.data.reverse with
  | nil => exact absurd hrev hne
  | cons c cs =>
    have hcs : cs.length + 1 = p.data.length := by
      have := congrArg List.length hrev
      rw [List.length_reverse, List.length_cons] at this
      exact this.symm
    have hle : (((c :: cs).dropWhile (fun c => c = '/')).dropWhile
        (fun c => c ≠ '/')).length ≤ cs.length := by
      by_cases hc : c = '/'
      · have h1 : (c :: cs).dropWhile (fun c => decide (c = '/')) =
            cs.dropWhile (fun c => decide (c = '/')) := by
          rw [List.dropWhile_cons]
          simp only [hc, decide_True, if_true]
        rw [h1]
        exact le_trans (length_dropWhile_le _ _) (length_dropWhile_le _ _)
      · have h1 : (c :: cs).dropWhile (fun c => decide (c = '/')) = c :: cs := by
          rw [List.dropWhile_cons]
          simp only [hc, decide_False, Bool.false_eq_true, if_false]
        have h2 : (c :: cs).dropWhile (fun c => decide (c ≠ '/')) =
            cs.dropWhile (fun c => decide (c ≠ '/')) := by
          rw [List.dropWhile_cons]
          simp only [ne_eq, hc, not_false_eq_true, decide_True, if_true]
        rw [h1, h2]
        exact length_dropWhile_le _ _
    omega

/-- The bound that `MkdirAll` passes is enough: any larger bound gives the
same result. -/
theorem OS.mkdirAllAux_fuel (n m : Nat) (os : OS) (p : String)
    (hn : p.length ≤ n) (hm : p.length ≤ m) :
    OS.mkdirAllAux n os p = OS.mkdirAllAux m os p := by
  have hempty : ∀ q : String, q.length = 0 → trimParent q = "" := by
    intro q hq
    have : q = "" := String.eq_empty_of_data q (List.length_eq_zero.mp hq)
    subst this
    decide
  induction n generalizing m os p with
  | zero =>
    have hp := hempty p (by omega)
    cases m with
    | zero => rfl
    | succ j =>
      unfold OS.mkdirAllAux
      simp [hp]
  | succ k ih =>
    cases m with
    | zero =>
      have hp := hempty p (by omega)
      unfold OS.mkdirAllAux
      simp [hp]
    | succ j =>
      unfold OS.mkdirAllAux
      by_cases hp : trimParent p = ""
      · simp [hp]
      · have hpne : p ≠ "" := by
          intro h0
          subst h0
          exact hp (by decide)
        have hlt := trimParent_length p hpne
        have key : ∀ os1 : OS, OS.mkdirAllAux k os1 (trimParent p) =
            OS.mkdirAllAux j os1 (trimParent p) :=
          fun os1 => ih j os1 (trimParent p) (by omega) (by omega)
        simp only [key]

end Goa
